import Mathlib

/-!
Verification development for the openBliSSART NMF/NMD engine
(`src/src/LibNMF/Deconvolver.cpp`).

Modelling conventions:
* IEEE doubles are modelled as exact rationals (`ℚ`).  Calls to the C
  library `sqrt` are modelled by an explicit parameter `f : ℚ → ℚ`; the
  concrete function `ratSqrt` below agrees with the correctly rounded IEEE
  square root on every input whose exact square root is rational (all
  concrete inputs used in this file are of that form).
* The dense matrix container `blissart::linalg::Matrix` is repository code
  that is not under `src/`; its operations are modelled from the spec
  (spec.md section 1, "Out of scope": elementwise access, row/column sums,
  dot products, Frobenius norm, GEMM with selectable transpose/sub-block
  offsets, elementwise divide, add/sub, zero-fill).
* Rational division by zero yields 0 in Lean; no theorem below depends on
  the value of a division at a zero denominator, only on which denominator
  expression the code uses.
-/

/-- Sum of `g 0 + g 1 + ... + g (n-1)` over the rationals, accumulated in
ascending index order exactly as the C++ loops do. -/
def qsum : ℕ → (ℕ → ℚ) → ℚ
  | 0, _ => 0
  | n + 1, g => qsum n g + g n

/-- Modelled from the spec: a dense rectangular matrix of double precision
values, with elementwise access.  Entries outside the `rows × cols` range
are irrelevant to every theorem below. -/
structure Mat where
  rows : ℕ
  cols : ℕ
  entry : ℕ → ℕ → ℚ

/-- Matrix with all stored entries given by a generator, zero outside range. -/
def Mat.ofFn (r c : ℕ) (g : ℕ → ℕ → ℚ) : Mat :=
  ⟨r, c, fun i j => if i < r ∧ j < c then g i j else 0⟩

/-- All-zero matrix of the given shape. -/
def Mat.zeros (r c : ℕ) : Mat := Mat.ofFn r c (fun _ _ => 0)

/-- Empty matrix, used as the default for out-of-range list access. -/
def mzero : Mat := ⟨0, 0, fun _ _ => 0⟩

/-- Reads an entry of the matrix or of its transpose, as selected by the
GEMM transpose flag. -/
def Mat.entryT (A : Mat) (tr : Bool) (i j : ℕ) : ℚ :=
  if tr then A.entry j i else A.entry i j

/-- Modelled from the spec: GEMM with selectable transpose flags and
sub-block offsets (`Matrix::multWithMatrix` with the 13-argument
signature used throughout the source).  Writes the `m × n` product block
starting at `(rt, ct)` of the target; every other entry of the target is
left unchanged. -/
def Mat.mwm (A B : Mat) (trA trB : Bool) (m k n ra ca rb cb rt ct : ℕ)
    (target : Mat) : Mat :=
  { target with entry := fun i j =>
      if rt ≤ i ∧ i < rt + m ∧ ct ≤ j ∧ j < ct + n then
        (qsum k (fun l =>
          A.entryT trA (ra + (i - rt)) (ca + l) *
          B.entryT trB (rb + l) (cb + (j - ct))))
      else target.entry i j }

/-- Modelled from the spec: full matrix product (`Matrix::multWithMatrix`
with two arguments, target fully overwritten). -/
def Mat.matMul (A B : Mat) : Mat :=
  ⟨A.rows, B.cols, fun i j => qsum A.cols (fun l => A.entry i l * B.entry l j)⟩

/-- Modelled from the spec: product with the transposed second factor
(`Matrix::multWithTransposedMatrix`). -/
def Mat.mulT (A B : Mat) : Mat :=
  ⟨A.rows, B.rows, fun i j => qsum A.cols (fun l => A.entry i l * B.entry j l)⟩

/-- Modelled from the spec: elementwise sum (`Matrix::add`). -/
def Mat.add (A B : Mat) : Mat :=
  ⟨A.rows, A.cols, fun i j => A.entry i j + B.entry i j⟩

/-- Modelled from the spec: elementwise difference (`Matrix::sub`). -/
def Mat.sub (A B : Mat) : Mat :=
  ⟨A.rows, A.cols, fun i j => A.entry i j - B.entry i j⟩

/-- Modelled from the spec: elementwise division
(`Matrix::elementWiseDivision`, writing into a target of the same shape). -/
def Mat.elemDiv (A B : Mat) : Mat :=
  ⟨A.rows, A.cols, fun i j => A.entry i j / B.entry i j⟩

/-- Modelled from the spec: sum of row `i` (`Matrix::rowSum`). -/
def Mat.rowSum (A : Mat) (i : ℕ) : ℚ := qsum A.cols (fun j => A.entry i j)

/-- Modelled from the spec: sum of column `j` (`Matrix::colSum`). -/
def Mat.colSum (A : Mat) (j : ℕ) : ℚ := qsum A.rows (fun i => A.entry i j)

/-- Modelled from the spec: dot product of two rows (`Matrix::dotRowRow`). -/
def Mat.dotRowRow (A : Mat) (i : ℕ) (B : Mat) (i' : ℕ) : ℚ :=
  qsum A.cols (fun j => A.entry i j * B.entry i' j)

/-- Modelled from the spec: dot product of two columns (`Matrix::dotColCol`). -/
def Mat.dotColCol (A : Mat) (j : ℕ) (B : Mat) (j' : ℕ) : ℚ :=
  qsum A.rows (fun i => A.entry i j * B.entry i j')

/-- Sum of the squares of all stored entries; the Frobenius norm of `A` is
the square root of this value. -/
def Mat.sumSq (A : Mat) : ℚ :=
  qsum A.rows (fun i => qsum A.cols (fun j => A.entry i j * A.entry i j))

/-- Modelled from the spec: shift every column one position to the right,
filling column 0 with zeros (`Matrix::shiftColumnsRight`, used by the KL
driver between p-steps). -/
def Mat.shiftColumnsRight (A : Mat) : Mat :=
  ⟨A.rows, A.cols, fun i j => if j = 0 then 0 else A.entry i (j - 1)⟩

/-- Models the IEEE double `sqrt` faithfully on every rational whose exact
square root is rational (there the correctly rounded result is exact);
all concrete inputs below are of that form. -/
def ratSqrt (q : ℚ) : ℚ :=
  (Nat.sqrt q.num.toNat : ℚ) / (Nat.sqrt q.den : ℚ)

/-- The numerical guard constant of the update drivers
(`#define DIVISOR_FLOOR 1e-9`, Deconvolver.cpp line 48). -/
def divisorFloor : ℚ := 1 / 1000000000

/-- The guard `if (denom <= 0.0) denom = DIVISOR_FLOOR;` used at the ED
family and sparse/continuity elementwise update sites. -/
def floorDenom (d : ℚ) : ℚ := if d ≤ 0 then divisorFloor else d

/-- The guard `if (wpColSums[i] == 0.0) wpColSums[i] = DIVISOR_FLOOR;` used
for the W column sums of the KL H update (Deconvolver.cpp lines 288-289);
note it replaces only an exact zero, not a negative value. -/
def floorDenomZero (d : ℚ) : ℚ := if d = 0 then divisorFloor else d

/-- A guarded denominator read from a matrix entry, as performed by every
`denom <= 0.0` guarded elementwise division site in the update drivers. -/
def floorMatEntry (m : Mat) (i j : ℕ) : ℚ := floorDenom (m.entry i j)

/-- The raw, unguarded divisor of the KL family W updates: the row sum of
the (possibly shifted) H matrix (`hRowSum` at Deconvolver.cpp line 255,
`hRowSums[j]` at lines 625 and 724). -/
def klWRowSumDivisor (hS : Mat) (j : ℕ) : ℚ := Mat.rowSum hS j

/-- The W column-sum divisor of the KL H update, guarded only against an
exact zero (Deconvolver.cpp lines 287-289). -/
def klHColSumDenom (wp : Mat) (i : ℕ) : ℚ := floorDenomZero (Mat.colSum wp i)

/-- Modelled from the spec: the default epsilon of `ensureNonnegativity`
(declared in the header, not under `src/`): a machine-small positive
constant. -/
def nonnegEpsilon : ℚ := 1 / 1000000000000

/-- Error kinds of the spec (section 7).  The C++ code raises
`std::runtime_error` for all of them; the kind classifies the message. -/
inductive ErrorKind where
  | invalidArgument
  | unsupported
  deriving DecidableEq, Repr

/-- An error raised by the engine, with its spec-level kind and message. -/
structure DecError where
  kind : ErrorKind
  msg : String
  deriving DecidableEq, Repr

/-- The message of the constructor error (the source interpolates the
offending numbers into it; the interpolation is dropped here). -/
def invalidSpectraMsg : String := "Invalid number of spectra"

/-- The cost function selector of `decompose`.  The `unknown` constructor
models any integer value outside the C++ enum (the final `else` branch
at Deconvolver.cpp line 196). -/
inductive NMFCostFunction where
  | EuclideanDistance
  | KLDivergence
  | EuclideanDistanceSparse
  | KLDivergenceSparse
  | KLDivergenceContinuous
  | EuclideanDistanceSparseNormalized
  | unknown
  deriving DecidableEq, Repr

/-- Whether the cost function is one of the sparse/continuous/normalized
variants that `decompose` rejects for t > 1. -/
def sparseFamily : NMFCostFunction → Bool
  | .EuclideanDistanceSparse => true
  | .KLDivergenceSparse => true
  | .KLDivergenceContinuous => true
  | .EuclideanDistanceSparseNormalized => true
  | _ => false

/-- The engine state (the fields of class `Deconvolver`). -/
structure DecState where
  v : Mat
  approx : Mat
  oldApprox : Option Mat
  w : List Mat
  wConstant : Bool
  wColConstant : ℕ → Bool
  normalizeMats : Bool
  t : ℕ
  h : Mat
  s : Mat
  c : Mat
  numSteps : ℕ
  absoluteError : ℚ
  relativeError : ℚ
  vFrob : ℚ
  notificationDelay : ℕ

/-- The state produced by a successful construction
(Deconvolver.cpp lines 70-103: member initializers, the
`_wColConstant` loop and `generateW`). -/
def constructOk (f : ℚ → ℚ) (v : Mat) (r t : ℕ)
    (wGen hGen : ℕ → ℕ → ℚ) : DecState :=
  { v := v
    approx := Mat.zeros v.rows v.cols
    oldApprox := none
    w := List.replicate t (Mat.ofFn v.rows r wGen)
    wConstant := false
    wColConstant := fun _ => false
    normalizeMats := false
    t := t
    h := Mat.ofFn r v.cols hGen
    s := Mat.ofFn r v.cols (fun _ _ => 0)
    c := Mat.ofFn r v.cols (fun _ _ => 0)
    numSteps := 0
    absoluteError := -1
    relativeError := -1
    vFrob := f (Mat.sumSq v)
    notificationDelay := 25 }

/-- The constructor (Deconvolver.cpp lines 70-103): raises when the
convolutive depth exceeds the number of columns of V, otherwise yields
the initialized state. -/
def construct (f : ℚ → ℚ) (v : Mat) (r t : ℕ)
    (wGen hGen : ℕ → ℕ → ℚ) : Except DecError DecState :=
  if v.cols < t then
    Except.error ⟨ErrorKind.invalidArgument, invalidSpectraMsg⟩
  else
    Except.ok (constructOk f v r t wGen hGen)

/-- `computeWpH` on explicitly given factors: zero-fill of the first `p`
columns followed by the offset GEMM (Deconvolver.cpp lines 905-921). -/
def computeWpHOf (w : List Mat) (h : Mat) (p : ℕ) (target : Mat) : Mat :=
  let wp := w.getD p mzero
  let z : Mat :=
    { target with entry := fun i j =>
        if j < p ∧ i < target.rows then 0 else target.entry i j }
  Mat.mwm wp h false false wp.rows wp.cols (h.cols - p) 0 0 0 0 0 p z

/-- `Deconvolver::computeWpH(p, wpH)`: writes W^p times the p-shifted H
into the target. -/
def computeWpH (st : DecState) (p : ℕ) (target : Mat) : Mat :=
  computeWpHOf st.w st.h p target

/-- `Deconvolver::computeApprox` (lines 888-902): a single product for
t = 1, otherwise the sum of all `computeWpH` terms accumulated into a
zeroed approximation with a reused scratch buffer. -/
def computeApprox (st : DecState) : DecState :=
  if st.t = 1 then
    { st with approx := Mat.matMul (st.w.getD 0 mzero) st.h }
  else
    let res := (List.range st.t).foldl
      (fun acc p =>
        let wpH := computeWpHOf st.w st.h p acc.2
        (Mat.add acc.1 wpH, wpH))
      ({ st.approx with entry := fun _ _ => 0 }, Mat.zeros st.v.rows st.v.cols)
    { st with approx := res.1 }

/-- `Deconvolver::ensureNonnegativity` (lines 933-942). -/
def ensureNonnegativity (m : Mat) (eps : ℚ) : Mat :=
  { m with entry := fun i j =>
      if i < m.rows ∧ j < m.cols ∧ m.entry i j ≤ 0 then eps else m.entry i j }

/-- `Deconvolver::checkConvergence` (lines 861-885), with the convergence
flag returned alongside the updated state (`_oldApprox` and possibly
`_approx` are mutated). -/
def checkConvergence (f : ℚ → ℚ) (eps : ℚ) (doComputeApprox : Bool)
    (st : DecState) : Bool × DecState :=
  if eps ≤ 0 then (false, st)
  else
    match st.oldApprox with
    | none =>
        let st1 := if doComputeApprox then computeApprox st else st
        (false, { st1 with oldApprox := some st1.approx })
    | some oldA =>
        let st1 := if doComputeApprox then computeApprox st else st
        let diff := Mat.sub st1.approx oldA
        let zeta := f (Mat.sumSq diff) / f (Mat.sumSq oldA)
        (decide (zeta < eps), { st1 with oldApprox := some st1.approx })

/-- Modelled from the spec: the convergence check exactly as claim C4 and
spec section 4.2 word it.  If ε ≤ 0, false without touching anything;
else recompute Λ only when `computeNow`; if Λ_prev is absent, snapshot
and return false; otherwise compute ζ = dist/norm, overwrite Λ_prev with
the current Λ and return (ζ < ε). -/
def checkConvergenceSpec (f : ℚ → ℚ) (eps : ℚ) (computeNow : Bool)
    (st : DecState) : Bool × DecState :=
  if eps ≤ 0 then (false, st)
  else
    let stc := if computeNow then computeApprox st else st
    match st.oldApprox with
    | none => (false, { stc with oldApprox := some stc.approx })
    | some prev =>
        let zeta := f (Mat.sumSq (Mat.sub stc.approx prev)) / f (Mat.sumSq prev)
        (decide (zeta < eps), { stc with oldApprox := some stc.approx })

/-- The loop filling the `hNormRight` vector in
`Deconvolver::normalizeMatrices` (lines 964-970), transcribed statement by
statement: the state carries the vector and the descending column index. -/
def hNormRightLoop (h : Mat) : List ℕ → ((ℕ → ℚ) × ℕ) → ((ℕ → ℚ) × ℕ)
  | [], st => st
  | p :: ps, (vec, col) =>
      let vec1 : ℕ → ℚ :=
        if 1 < p then (fun q => if q = p - 1 then vec (p - 2) else vec q) else vec
      let vec2 : ℕ → ℚ := fun q =>
        if q = p - 1 then vec1 (p - 1) + Mat.dotColCol h col h col else vec1 q
      hNormRightLoop h ps (vec2, col - 1)

/-- The `hNormRight` vector as the source computes it: all zeros, then the
loop `for (p = 1; p < t; ++p, --col)` starting at the last column of H. -/
def hNormRightFun (h : Mat) (t : ℕ) : ℕ → ℚ :=
  (hNormRightLoop h (List.range' 1 (t - 1)) ((fun _ => 0), h.cols - 1)).1

/-- `Deconvolver::normalizeMatrices` (lines 945-978): divide every element
of H by its Frobenius norm, then scale every W^p by
(hNorm - hNormRight[p]). -/
def normalizeMatrices (f : ℚ → ℚ) (st : DecState) : DecState :=
  let hNorm := f (Mat.sumSq st.h)
  let h1 : Mat :=
    { st.h with entry := fun i j =>
        if i < st.h.rows ∧ j < st.h.cols then st.h.entry i j / hNorm
        else st.h.entry i j }
  let hnr := hNormRightFun h1 st.t
  let w1 := (List.range st.t).map (fun p =>
    let wp := st.w.getD p mzero
    { wp with entry := fun i j =>
        if i < wp.rows ∧ j < wp.cols then wp.entry i j * (hNorm - hnr p)
        else wp.entry i j })
  { st with h := h1, w := w1 }

/-- `Deconvolver::factorizeNMFEDWUpdate` (lines 323-346): the guarded
Lee-Seung W update for T = 1, computing V·Hᵀ and W·(H·Hᵀ) and skipping
everything when `_wConstant`, and skipping frozen columns. -/
def factorizeNMFEDWUpdate (st : DecState) (w : Mat) : Mat :=
  if st.wConstant then w
  else
    let num := Mat.mulT st.v st.h
    let hhT := Mat.mulT st.h st.h
    let den := Mat.matMul w hhT
    { w with entry := fun i j =>
        if j < w.cols ∧ st.wColConstant j = false ∧ i < w.rows then
          (w.entry i j * (num.entry i j / floorMatEntry den i j))
        else w.entry i j }

/-- `Deconvolver::calculateNMFEDHUpdate` (lines 349-365): numerator Wᵀ·V and
denominator (Wᵀ·W)·H of the ED H update. -/
def calculateNMFEDHUpdate (st : DecState) : Mat × Mat :=
  let w0 := st.w.getD 0 mzero
  let num := Mat.mwm w0 st.v true false st.h.rows st.v.rows st.h.cols
    0 0 0 0 0 0 (Mat.zeros st.h.rows st.h.cols)
  let wTw := Mat.mwm w0 w0 true false st.h.rows w0.rows st.h.rows
    0 0 0 0 0 0 (Mat.zeros st.h.rows st.h.rows)
  (num, Mat.matMul wTw st.h)

/-- One iteration of `Deconvolver::factorizeNMFED` (lines 380-394), after
the convergence check: W update then guarded H update. -/
def factorizeNMFEDIter (st : DecState) : DecState :=
  let w1 := factorizeNMFEDWUpdate st (st.w.getD 0 mzero)
  let st1 := { st with w := st.w.set 0 w1 }
  let nd := calculateNMFEDHUpdate st1
  { st1 with h :=
      { st1.h with entry := fun i j =>
          if i < st1.h.rows ∧ j < st1.h.cols then
            (st1.h.entry i j * (nd.1.entry i j / floorMatEntry nd.2 i j))
          else st1.h.entry i j } }

/-- One p-step of the NMD-ED W phase (lines 422-471): offset GEMMs for the
numerator and denominator, difference-based approximation update, the
guarded elementwise W^p update with frozen columns skipped, and the
non-negativity clamp. -/
def factorizeNMDEDWPhaseStep (st : DecState) (acc : List Mat × Mat) (p : ℕ) :
    List Mat × Mat :=
  let wl := acc.1
  let approx := acc.2
  let num := Mat.mwm st.v st.h false true st.v.rows (st.v.cols - p) st.h.rows
    0 p 0 0 0 0 (Mat.zeros st.v.rows st.h.rows)
  let den := Mat.mwm approx st.h false true st.v.rows (st.v.cols - p) st.h.rows
    0 p 0 0 0 0 (Mat.zeros st.v.rows st.h.rows)
  let approxA := Mat.sub approx (computeWpHOf wl st.h p (Mat.zeros st.v.rows st.v.cols))
  let wp := wl.getD p mzero
  let wpNew :=
    { wp with entry := fun i j =>
        if j < wp.cols ∧ st.wColConstant j = false ∧ i < wp.rows then
          (wp.entry i j * (num.entry i j / floorMatEntry den i j))
        else wp.entry i j }
  let wl1 := wl.set p wpNew
  let approxB := ensureNonnegativity
    (Mat.add approxA (computeWpHOf wl1 st.h p (Mat.zeros st.v.rows st.v.cols)))
    nonnegEpsilon
  (wl1, approxB)

/-- One iteration of `Deconvolver::factorizeNMDED` (lines 410-512), after
`computeApprox` and the convergence check: the W phase over all p, then the
averaged guarded H update. -/
def factorizeNMDEDIter (st : DecState) : DecState :=
  let wa :=
    if st.wConstant then (st.w, st.approx)
    else (List.range st.t).foldl (factorizeNMDEDWPhaseStep st) (st.w, st.approx)
  let st1 := { st with w := wa.1, approx := wa.2 }
  let hSum := (List.range st.t).foldl
    (fun hS p =>
      let wp := wa.1.getD p mzero
      let hNum := Mat.mwm wp st.v true false wp.cols wp.rows (st.v.cols - p)
        0 0 0 p 0 0 (Mat.zeros st.h.rows st.h.cols)
      let hDen := Mat.mwm wp wa.2 true false wp.cols wp.rows (st.v.cols - p)
        0 0 0 p 0 0 (Mat.zeros st.h.rows st.h.cols)
      { hS with entry := fun i j =>
          if j < st.h.cols - p ∧ i < st.h.rows then
            (hS.entry i j + st.h.entry i j * (hNum.entry i j / floorMatEntry hDen i j))
          else hS.entry i j })
    (Mat.zeros st.h.rows st.h.cols)
  { st1 with h :=
      { st1.h with entry := fun i j =>
          if i < st1.h.rows ∧ j < st1.h.cols then
            (hSum.entry i j / (st.t : ℚ))
          else st1.h.entry i j } }

/-- One p-step of the KL W phase (lines 244-268): for t > 1 subtract the old
W^p·H term, update W^p elementwise dividing by the raw row sum of the
shifted H (no DIVISOR_FLOOR guard, lines 255-257), then for t > 1 add the
new term back, clamp, and shift the local H copy right. -/
def factorizeNMDKLWPhaseStep (st : DecState) (vOA : Mat)
    (acc : List Mat × Mat × Mat) (p : ℕ) : List Mat × Mat × Mat :=
  let wl := acc.1
  let approx := acc.2.1
  let hS := acc.2.2
  let approxA :=
    if 1 < st.t then
      Mat.sub approx (computeWpHOf wl st.h p (Mat.zeros st.v.rows st.v.cols))
    else approx
  let wUpdateNum := Mat.mulT vOA hS
  let wp := wl.getD p mzero
  let wpNew :=
    { wp with entry := fun i j =>
        if j < wp.cols ∧ st.wColConstant j = false ∧ i < wp.rows then
          (wp.entry i j * (wUpdateNum.entry i j / klWRowSumDivisor hS j))
        else wp.entry i j }
  let wl1 := wl.set p wpNew
  if 1 < st.t then
    let approxB := ensureNonnegativity
      (Mat.add approxA (computeWpHOf wl1 st.h p (Mat.zeros st.v.rows st.v.cols)))
      nonnegEpsilon
    (wl1, approxB, Mat.shiftColumnsRight hS)
  else (wl1, approxA, hS)

/-- One iteration of `Deconvolver::factorizeNMDKL` (lines 228-317), after
`computeApprox` and the convergence check: V⊘Λ, the W phase over all p
with a locally shifted H copy, the recomputation of Λ for t = 1, and the
averaged H update with zero-guarded W column sums. -/
def factorizeNMDKLIter (st : DecState) : DecState :=
  let vOA := Mat.elemDiv st.v st.approx
  let wa :=
    if st.wConstant then (st.w, st.approx)
    else
      let res := (List.range st.t).foldl (factorizeNMDKLWPhaseStep st vOA)
        (st.w, st.approx, st.h)
      (res.1, res.2.1)
  let st1 := { st with w := wa.1, approx := wa.2 }
  let st2 := if st.t = 1 then computeApprox st1 else st1
  let vOA2 := Mat.elemDiv st.v st2.approx
  let hUp := (List.range st.t).foldl
    (fun hU p =>
      let wp := wa.1.getD p mzero
      let hNum := Mat.mwm wp vOA2 true false wp.cols wp.rows (st.v.cols - p)
        0 0 0 p 0 0 (Mat.zeros st.h.rows st.h.cols)
      { hU with entry := fun i j =>
          if j < st.h.cols - p ∧ i < st.h.rows then
            (hU.entry i j + hNum.entry i j / klHColSumDenom wp i)
          else hU.entry i j })
    (Mat.zeros st.h.rows st.h.cols)
  { st2 with h :=
      { st2.h with entry := fun i j =>
          if i < st2.h.rows ∧ j < st2.h.cols then
            (st2.h.entry i j * (hUp.entry i j / (st.t : ℚ)))
          else st2.h.entry i j } }

/-- One iteration of `Deconvolver::factorizeNMFEDSparse` (lines 538-565),
after the convergence check: shared ED W update, then the H update with
the row-normalized sparsity terms csplus/csminus. -/
def factorizeNMFEDSparseIter (f : ℚ → ℚ) (st : DecState) : DecState :=
  let w1 := factorizeNMFEDWUpdate st (st.w.getD 0 mzero)
  let st1 := { st with w := st.w.set 0 w1 }
  let nd := calculateNMFEDHUpdate st1
  let sqrtT := f (st1.h.cols : ℚ)
  let csplus : ℕ → ℚ := fun i => sqrtT / f (Mat.dotRowRow st1.h i st1.h i)
  let csminus : ℕ → ℚ := fun i =>
    sqrtT * Mat.rowSum st1.h i /
      (Mat.dotRowRow st1.h i st1.h i * f (Mat.dotRowRow st1.h i st1.h i))
  { st1 with h :=
      { st1.h with entry := fun i j =>
          if i < st1.h.rows ∧ j < st1.h.cols then
            (st1.h.entry i j *
              ((nd.1.entry i j + st1.s.entry i j * st1.h.entry i j * csminus i) /
                floorDenom (nd.2.entry i j + st1.s.entry i j * csplus i)))
          else st1.h.entry i j } }

/-- One iteration of `Deconvolver::factorizeNMFKLSparse` (lines 602-661),
after `computeApprox` and the convergence check.  The W update divides by
the raw H row sums (`hRowSums[j]`, line 625, no guard); the H update
denominator is guarded. -/
def factorizeNMFKLSparseIter (f : ℚ → ℚ) (st : DecState) : DecState :=
  let w := st.w.getD 0 mzero
  let vOA := Mat.elemDiv st.v st.approx
  let wUpdateNum := Mat.mulT vOA st.h
  let hRowSums : ℕ → ℚ := fun i => Mat.rowSum st.h i
  let wav :=
    if st.wConstant then (w, st.approx, vOA)
    else
      let wNew :=
        { w with entry := fun i j =>
            if j < w.cols ∧ st.wColConstant j = false ∧ i < w.rows then
              (w.entry i j * (wUpdateNum.entry i j / klWRowSumDivisor st.h j))
            else w.entry i j }
      let stTmp := computeApprox { st with w := st.w.set 0 wNew }
      (wNew, stTmp.approx, Mat.elemDiv st.v stTmp.approx)
  let st1 := { st with w := st.w.set 0 wav.1, approx := wav.2.1 }
  let sqrtT := f (st.h.cols : ℚ)
  let csplus : ℕ → ℚ := fun i => sqrtT / f (Mat.dotRowRow st.h i st.h i)
  let csminus : ℕ → ℚ := fun i =>
    sqrtT * hRowSums i /
      (Mat.dotRowRow st.h i st.h i * f (Mat.dotRowRow st.h i st.h i))
  let wColSums : ℕ → ℚ := fun i => Mat.colSum wav.1 i
  let hNum := Mat.mwm wav.1 wav.2.2 true false st.h.rows st.v.rows st.h.cols
    0 0 0 0 0 0 (Mat.zeros st.h.rows st.h.cols)
  { st1 with h :=
      { st.h with entry := fun i j =>
          if i < st.h.rows ∧ j < st.h.cols then
            (st.h.entry i j *
              ((hNum.entry i j + st.s.entry i j * st.h.entry i j * csminus i) /
                floorDenom (wColSums i + st.s.entry i j * csplus i)))
          else st.h.entry i j } }

/-- One iteration of `Deconvolver::factorizeNMFKLTempCont` (lines 699-773),
after `computeApprox` and the convergence check.  The W update divides by
the raw H row sums (line 724, no guard); the H update denominator is
guarded and uses the temporal-continuity gradient terms. -/
def factorizeNMFKLTempContIter (st : DecState) : DecState :=
  let w := st.w.getD 0 mzero
  let oldH := st.h
  let vOA := Mat.elemDiv st.v st.approx
  let wUpdateNum := Mat.mulT vOA st.h
  let wav :=
    if st.wConstant then (w, st.approx, vOA)
    else
      let wNew :=
        { w with entry := fun i j =>
            if j < w.cols ∧ st.wColConstant j = false ∧ i < w.rows then
              (w.entry i j * (wUpdateNum.entry i j / klWRowSumDivisor st.h j))
            else w.entry i j }
      let stTmp := computeApprox { st with w := st.w.set 0 wNew }
      (wNew, stTmp.approx, Mat.elemDiv st.v stTmp.approx)
  let st1 := { st with w := st.w.set 0 wav.1, approx := wav.2.1 }
  let wColSums : ℕ → ℚ := fun i => Mat.colSum wav.1 i
  let hDeltaSumSq : ℕ → ℚ := fun i =>
    qsum (st.h.cols - 1) (fun j =>
      (st.h.entry i (j + 1) - st.h.entry i j) * (st.h.entry i (j + 1) - st.h.entry i j))
  let ctplus : ℕ → ℚ := fun i =>
    4 * (st.h.cols : ℚ) / Mat.dotRowRow st.h i st.h i
  let ctminus1 : ℕ → ℚ := fun i =>
    2 * (st.h.cols : ℚ) / Mat.dotRowRow st.h i st.h i
  let ctminus2 : ℕ → ℚ := fun i =>
    2 * (st.h.cols : ℚ) * hDeltaSumSq i /
      (Mat.dotRowRow st.h i st.h i * Mat.dotRowRow st.h i st.h i)
  let hNum := Mat.mwm wav.1 wav.2.2 true false st.h.rows st.v.rows st.h.cols
    0 0 0 0 0 0 (Mat.zeros st.h.rows st.h.cols)
  { st1 with h :=
      { st.h with entry := fun i j =>
          if i < st.h.rows ∧ j < st.h.cols then
            ((fun l r =>
              st.h.entry i j *
                ((hNum.entry i j +
                  st.c.entry i j * ((l + r) * ctminus1 i + st.h.entry i j * ctminus2 i)) /
                  floorDenom (wColSums i + st.c.entry i j * st.h.entry i j * ctplus i)))
              (if j = 0 then 0 else oldH.entry i (j - 1))
              (if j = st.h.cols - 1 then 0 else st.h.entry i (j + 1)))
          else st.h.entry i j } }

/-- One iteration of `Deconvolver::factorizeNMFEDSparseNorm` (lines 807-857),
after the convergence check: every column of W is divided by its Euclidean
norm (no `_wConstant` or column-freeze check, lines 809-814), then the
guarded H update, then the Eggert-Korner normalized W update which skips
only frozen columns. -/
def factorizeNMFEDSparseNormIter (f : ℚ → ℚ) (st : DecState) : DecState :=
  let w := st.w.getD 0 mzero
  let wN : Mat :=
    { w with entry := fun i j =>
        if j < w.cols ∧ i < w.rows then
          (w.entry i j / f (Mat.dotColCol w j w j))
        else w.entry i j }
  let hNum := Mat.mwm wN st.v true false st.h.rows st.v.rows st.h.cols
    0 0 0 0 0 0 (Mat.zeros st.h.rows st.h.cols)
  let wTw := Mat.mwm wN wN true false st.h.rows wN.rows st.h.rows
    0 0 0 0 0 0 (Mat.zeros st.h.rows st.h.rows)
  let hDen := Mat.matMul wTw st.h
  let hNew : Mat :=
    { st.h with entry := fun i j =>
        if i < st.h.rows ∧ j < st.h.cols then
          (st.h.entry i j *
            (hNum.entry i j / floorDenom (hDen.entry i j + st.s.entry i j)))
        else st.h.entry i j }
  let A := Mat.mulT st.v hNew
  let hhT := Mat.mulT hNew hNew
  let B := Mat.matMul wN hhT
  let K := Mat.matMul hhT wTw
  let hvT := Mat.mulT hNew st.v
  let L := Mat.matMul hvT wN
  let wNew : Mat :=
    { wN with entry := fun i j =>
        if j < wN.cols ∧ st.wColConstant j = false ∧ i < wN.rows then
          (wN.entry i j *
            ((A.entry i j + K.entry j j * wN.entry i j) /
              floorDenom (B.entry i j + L.entry j j * wN.entry i j)))
        else wN.entry i j }
  { st with w := st.w.set 0 wNew, h := hNew }

/-- `Deconvolver::nextItStep` (lines 981-988): increment the step counter
and, when the observer is present and the counter is a multiple of the
notification delay, emit the fraction numSteps/maxSteps. -/
def nextItStep (obs : Bool) (delay maxSteps : ℕ) (st : DecState) :
    DecState × List ℚ :=
  let st1 := { st with numSteps := st.numSteps + 1 }
  (st1,
    if obs ∧ st1.numSteps % delay = 0 then [(st1.numSteps : ℚ) / (maxSteps : ℚ)]
    else [])

/-- The iteration loop shared by all six drivers:
`while (numSteps < maxSteps)`, then the convergence check (with its state
mutations) breaking the loop, then the iteration body, then `nextItStep`.
`stepFn` performs the check plus body and reports whether the check fired;
the fuel argument makes the recursion structural and is instantiated with
`maxSteps`, which bounds the number of iterations.  Returns the final
state and the emitted progress fractions. -/
def runDriver (stepFn : DecState → DecState × Bool) (obs : Bool)
    (delay maxSteps : ℕ) : ℕ → DecState → DecState × List ℚ
  | 0, st => (st, [])
  | fuel + 1, st =>
      if st.numSteps < maxSteps then
        (fun r =>
          if r.2 then (r.1, [])
          else
            (fun n =>
              (fun rest => (rest.1, n.2 ++ rest.2))
                (runDriver stepFn obs delay maxSteps fuel n.1))
              (nextItStep obs delay maxSteps r.1))
          (stepFn st)
      else (st, [])

/-- One loop step of `factorizeNMFED` (line 379): convergence check with
recomputation, then the iteration body. -/
def factorizeNMFEDStep (f : ℚ → ℚ) (eps : ℚ) (st : DecState) :
    DecState × Bool :=
  let cs := checkConvergence f eps true st
  if cs.1 then (cs.2, true) else (factorizeNMFEDIter cs.2, false)

/-- One loop step of `factorizeNMDED` (lines 412-417): recompute the
approximation, check convergence without recomputation, then the body. -/
def factorizeNMDEDStep (f : ℚ → ℚ) (eps : ℚ) (st : DecState) :
    DecState × Bool :=
  let st0 := computeApprox st
  let cs := checkConvergence f eps false st0
  if cs.1 then (cs.2, true) else (factorizeNMDEDIter cs.2, false)

/-- One loop step of `factorizeNMDKL` (lines 230-234). -/
def factorizeNMDKLStep (f : ℚ → ℚ) (eps : ℚ) (st : DecState) :
    DecState × Bool :=
  let st0 := computeApprox st
  let cs := checkConvergence f eps false st0
  if cs.1 then (cs.2, true) else (factorizeNMDKLIter cs.2, false)

/-- One loop step of `factorizeNMFEDSparse` (line 538). -/
def factorizeNMFEDSparseStep (f : ℚ → ℚ) (eps : ℚ) (st : DecState) :
    DecState × Bool :=
  let cs := checkConvergence f eps true st
  if cs.1 then (cs.2, true) else (factorizeNMFEDSparseIter f cs.2, false)

/-- One loop step of `factorizeNMFKLSparse` (lines 604-609). -/
def factorizeNMFKLSparseStep (f : ℚ → ℚ) (eps : ℚ) (st : DecState) :
    DecState × Bool :=
  let st0 := computeApprox st
  let cs := checkConvergence f eps false st0
  if cs.1 then (cs.2, true) else (factorizeNMFKLSparseIter f cs.2, false)

/-- One loop step of `factorizeNMFKLTempCont` (lines 701-706). -/
def factorizeNMFKLTempContStep (f : ℚ → ℚ) (eps : ℚ) (st : DecState) :
    DecState × Bool :=
  let st0 := computeApprox st
  let cs := checkConvergence f eps false st0
  if cs.1 then (cs.2, true) else (factorizeNMFKLTempContIter cs.2, false)

/-- One loop step of `factorizeNMFEDSparseNorm` (line 807). -/
def factorizeNMFEDSparseNormStep (f : ℚ → ℚ) (eps : ℚ) (st : DecState) :
    DecState × Bool :=
  let cs := checkConvergence f eps true st
  if cs.1 then (cs.2, true) else (factorizeNMFEDSparseNormIter f cs.2, false)

/-- `Deconvolver::factorizeNMFED`: reset the step counter, then loop. -/
def factorizeNMFED (f : ℚ → ℚ) (eps : ℚ) (obs : Bool) (maxSteps : ℕ)
    (st : DecState) : DecState × List ℚ :=
  runDriver (factorizeNMFEDStep f eps) obs st.notificationDelay maxSteps
    maxSteps { st with numSteps := 0 }

/-- `Deconvolver::factorizeNMDED`: reset the step counter, then loop. -/
def factorizeNMDED (f : ℚ → ℚ) (eps : ℚ) (obs : Bool) (maxSteps : ℕ)
    (st : DecState) : DecState × List ℚ :=
  runDriver (factorizeNMDEDStep f eps) obs st.notificationDelay maxSteps
    maxSteps { st with numSteps := 0 }

/-- `Deconvolver::factorizeNMDKL`: reset the step counter, then loop. -/
def factorizeNMDKL (f : ℚ → ℚ) (eps : ℚ) (obs : Bool) (maxSteps : ℕ)
    (st : DecState) : DecState × List ℚ :=
  runDriver (factorizeNMDKLStep f eps) obs st.notificationDelay maxSteps
    maxSteps { st with numSteps := 0 }

/-- `Deconvolver::factorizeNMFEDSparse`: reset the step counter, then loop. -/
def factorizeNMFEDSparse (f : ℚ → ℚ) (eps : ℚ) (obs : Bool) (maxSteps : ℕ)
    (st : DecState) : DecState × List ℚ :=
  runDriver (factorizeNMFEDSparseStep f eps) obs st.notificationDelay maxSteps
    maxSteps { st with numSteps := 0 }

/-- `Deconvolver::factorizeNMFKLSparse`: reset the step counter, then loop. -/
def factorizeNMFKLSparse (f : ℚ → ℚ) (eps : ℚ) (obs : Bool) (maxSteps : ℕ)
    (st : DecState) : DecState × List ℚ :=
  runDriver (factorizeNMFKLSparseStep f eps) obs st.notificationDelay maxSteps
    maxSteps { st with numSteps := 0 }

/-- `Deconvolver::factorizeNMFKLTempCont`: reset the step counter, then loop. -/
def factorizeNMFKLTempCont (f : ℚ → ℚ) (eps : ℚ) (obs : Bool) (maxSteps : ℕ)
    (st : DecState) : DecState × List ℚ :=
  runDriver (factorizeNMFKLTempContStep f eps) obs st.notificationDelay maxSteps
    maxSteps { st with numSteps := 0 }

/-- `Deconvolver::factorizeNMFEDSparseNorm`: reset the step counter, then
loop. -/
def factorizeNMFEDSparseNorm (f : ℚ → ℚ) (eps : ℚ) (obs : Bool)
    (maxSteps : ℕ) (st : DecState) : DecState × List ℚ :=
  runDriver (factorizeNMFEDSparseNormStep f eps) obs st.notificationDelay
    maxSteps maxSteps { st with numSteps := 0 }

/-- The epilogue of `Deconvolver::decompose` (lines 200-213): optional
normalization, the final `progressChanged(1.0)` when an observer is
present, and the release of the old approximation. -/
def finishDecompose (f : ℚ → ℚ) (obs : Bool) (r : DecState × List ℚ) :
    DecState × List ℚ × Option DecError :=
  let st1 := if r.1.normalizeMats then normalizeMatrices f r.1 else r.1
  ({ st1 with oldApprox := none }, r.2 ++ (if obs then [(1 : ℚ)] else []), none)

/-- `Deconvolver::decompose` (lines 156-214): dispatch on the cost function
and the depth, raising `Unsupported` for the sparse/continuous/normalized
variants with t > 1 and `InvalidArgument` for an unrecognized cost
function, both before any iteration runs; otherwise run the driver and the
epilogue.  Returns the final state, the emitted progress fractions, and
the raised error, if any. -/
def decompose (f : ℚ → ℚ) (cf : NMFCostFunction) (maxSteps : ℕ) (eps : ℚ)
    (obs : Bool) (st : DecState) : DecState × List ℚ × Option DecError :=
  match cf with
  | .EuclideanDistance =>
      if st.t = 1 then finishDecompose f obs (factorizeNMFED f eps obs maxSteps st)
      else finishDecompose f obs (factorizeNMDED f eps obs maxSteps st)
  | .KLDivergence => finishDecompose f obs (factorizeNMDKL f eps obs maxSteps st)
  | .EuclideanDistanceSparse =>
      if 1 < st.t then (st, [], some ⟨ErrorKind.unsupported, "Sparse NMD not implemented"⟩)
      else finishDecompose f obs (factorizeNMFEDSparse f eps obs maxSteps st)
  | .KLDivergenceSparse =>
      if 1 < st.t then (st, [], some ⟨ErrorKind.unsupported, "Sparse NMD not implemented"⟩)
      else finishDecompose f obs (factorizeNMFKLSparse f eps obs maxSteps st)
  | .KLDivergenceContinuous =>
      if 1 < st.t then (st, [], some ⟨ErrorKind.unsupported, "Continuous NMD not implemented"⟩)
      else finishDecompose f obs (factorizeNMFKLTempCont f eps obs maxSteps st)
  | .EuclideanDistanceSparseNormalized =>
      if 1 < st.t then (st, [], some ⟨ErrorKind.unsupported, "Sparse NMD not implemented"⟩)
      else finishDecompose f obs (factorizeNMFEDSparseNorm f eps obs maxSteps st)
  | .unknown => (st, [], some ⟨ErrorKind.invalidArgument, "Invalid cost function"⟩)

/-- The in-loop progress fractions of a run that completes `n` iterations:
the multiples of the notification delay up to `n`, each divided by the
maximum step count. -/
def canonicalTrace (n delay maxSteps : ℕ) : List ℚ :=
  ((List.range' 1 n).filter (fun k => k % delay == 0)).map
    (fun k : ℕ => (k : ℚ) / (maxSteps : ℚ))

/-- Well-formedness of an engine state: the dimension relations that the
constructor establishes and every engine operation preserves. -/
def WellFormed (st : DecState) : Prop :=
  st.h.cols = st.v.cols ∧ st.approx.rows = st.v.rows ∧
  st.approx.cols = st.v.cols ∧ st.w.length = st.t ∧ st.t ≤ st.v.cols ∧
  0 < st.t ∧
  ∀ p, p < st.t →
    (st.w.getD p mzero).rows = st.v.rows ∧
    (st.w.getD p mzero).cols = st.h.rows

/-- A 1×1 matrix. -/
def m11 (a : ℚ) : Mat := Mat.ofFn 1 1 (fun _ _ => a)

/-- A 1×2 matrix given by its two entries. -/
def m12 (a b : ℚ) : Mat := Mat.ofFn 1 2 (fun _ j => if j = 0 then a else b)

/-- A 2×2 matrix given by its four entries, row major. -/
def m22 (a b c d : ℚ) : Mat :=
  Mat.ofFn 2 2 (fun i j =>
    if i = 0 then (if j = 0 then a else b) else (if j = 0 then c else d))

/-- An engine state with the given payload matrices and depth and the
constructor defaults for every flag and counter. -/
def baseState (v : Mat) (w : List Mat) (h : Mat) (t : ℕ) : DecState :=
  { v := v
    approx := Mat.zeros v.rows v.cols
    oldApprox := none
    w := w
    wConstant := false
    wColConstant := fun _ => false
    normalizeMats := false
    t := t
    h := h
    s := Mat.zeros h.rows h.cols
    c := Mat.zeros h.rows h.cols
    numSteps := 0
    absoluteError := -1
    relativeError := -1
    vFrob := 0
    notificationDelay := 25 }

/-- A reachable KL-driver state whose H has an all-zero row (row 0); the
caller-supplied generator may legally produce it, as spec.md section 9
notes for exact-zero initial states. -/
def stC1 : DecState :=
  baseState (m12 1 1) [Mat.ofFn 1 2 (fun _ _ => 1)] (m22 0 0 1 1) 1

/-- A 1×1 w-column matrix with a non-negative column sum, for the C1
witness. -/
def matC1w : Mat := m11 1

/-- A 1×1 engine state with `w_constant` set and a W entry of norm 2, for
the C2 counterexample on the normalized-basis driver. -/
def stC2 : DecState :=
  { baseState (m11 1) [m11 2] (m11 1) 1 with wConstant := true }

/-- A 1×1 engine state with both `w_constant` and every `w_col_constant`
set, for the C2 amended witness. -/
def stC2w : DecState :=
  { baseState (m11 1) [m11 1] (m11 1) 1 with
    wConstant := true, wColConstant := fun _ => true }

/-- A depth-2 state with H = [3 4] and both W matrices equal to [2], for
the C3 failing-input evaluation. -/
def stC3 : DecState := baseState (m12 1 1) [m11 2, m11 2] (m12 3 4) 2

/-- A depth-2 well-formed state for the C5 witness. -/
def stC5 : DecState := baseState (m12 1 1) [m11 1, m11 2] (m12 3 4) 2

/-- A depth-2 state used to exercise the `Unsupported` rejection of the
sparse variants in the C6 witness. -/
def stC6 : DecState := baseState (m12 1 1) [m11 1, m11 1] (m12 1 1) 2

/-- A depth-1 state with H = [3 4] (Frobenius norm 5) and W = [2], for the
C7 witness. -/
def stC7 : DecState := baseState (m12 1 1) [m11 2] (m12 3 4) 1

/-- A 1×1 depth-1 state with notification delay 1, for the C8
counterexample run of 2 iterations. -/
def stC8 : DecState :=
  { baseState (m11 1) [m11 1] (m11 1) 1 with notificationDelay := 1 }

/-- A trivial state for the C8 amended witness. -/
def stC8w : DecState := baseState (m11 1) [m11 1] (m11 1) 1

/-- A 1×1 depth-1 state for the C9 two-successive-decompose counterexample. -/
def stC9 : DecState := baseState (m11 1) [m11 1] (m11 1) 1

/-- A 1×1 depth-1 state for the C9 amended witness. -/
def stC9w : DecState := baseState (m11 1) [m11 1] (m11 1) 1

/-- An input matrix for the C10 witness. -/
def vC10 : Mat := m12 1 1

theorem qsum_eq_sum (g : ℕ → ℚ) (n : ℕ) :
    qsum n g = ∑ l ∈ Finset.range n, g l := by
  induction n with
  | zero => rfl
  | succ n ih => rw [Finset.sum_range_succ, ← ih, qsum]

theorem qsum_congr (g g' : ℕ → ℚ) (n : ℕ) (h : ∀ l, l < n → g l = g' l) :
    qsum n g = qsum n g' := by
  rw [qsum_eq_sum, qsum_eq_sum]
  exact Finset.sum_congr rfl (fun l hl => h l (Finset.mem_range.mp hl))

theorem getD_set_eq_ite (l : List Mat) (n : ℕ) (x : Mat) (m : ℕ) :
    (l.set n x).getD m mzero
      = if m = n ∧ n < l.length then x else l.getD m mzero := by
  induction l generalizing n m with
  | nil => simp
  | cons a t ih =>
      cases n with
      | zero =>
          cases m with
          | zero => simp
          | succ m => simp
      | succ n =>
          cases m with
          | zero => simp
          | succ m =>
              show (t.set n x).getD m mzero
                = if m + 1 = n + 1 ∧ n + 1 < (a :: t).length then x
                  else t.getD m mzero
              rw [ih]
              have hiff : (m + 1 = n + 1 ∧ n + 1 < (a :: t).length)
                  ↔ (m = n ∧ n < t.length) := by
                simp only [List.length_cons]
                omega
              simp only [hiff]


theorem set_getD_self (l : List Mat) : l.set 0 (l.getD 0 mzero) = l := by
  cases l <;> simp

theorem floorDenom_pos (d : ℚ) : 0 < floorDenom d := by
  unfold floorDenom divisorFloor
  split
  · norm_num
  · linarith [not_le.mp (by assumption : ¬ d ≤ 0)]

theorem floorMatEntry_pos (m : Mat) (i j : ℕ) : 0 < floorMatEntry m i j :=
  floorDenom_pos _

theorem klHColSumDenom_pos (wp : Mat) (i : ℕ) (h : 0 ≤ Mat.colSum wp i) :
    0 < klHColSumDenom wp i := by
  unfold klHColSumDenom floorDenomZero divisorFloor
  split
  · norm_num
  · exact lt_of_le_of_ne h (Ne.symm (by assumption))

theorem ratSqrt_natCast_sq (n : ℕ) : ratSqrt ((n ^ 2 : ℕ) : ℚ) = n := by
  unfold ratSqrt
  rw [Rat.num_natCast, Rat.den_natCast, Int.toNat_natCast, Nat.sqrt_eq',
    Nat.sqrt_one]
  norm_num

theorem ratSqrt_one : ratSqrt 1 = 1 := by
  have h := ratSqrt_natCast_sq 1
  norm_num at h
  exact h

theorem ratSqrt_four : ratSqrt 4 = 2 := by
  have h := ratSqrt_natCast_sq 2
  norm_num at h
  exact h

theorem ratSqrt_twentyfive : ratSqrt 25 = 5 := by
  have h := ratSqrt_natCast_sq 5
  norm_num at h
  exact h

theorem computeApprox_numSteps (st : DecState) :
    (computeApprox st).numSteps = st.numSteps := by
  unfold computeApprox; split <;> rfl

theorem computeApprox_w (st : DecState) : (computeApprox st).w = st.w := by
  unfold computeApprox; split <;> rfl

theorem checkConvergence_numSteps (f : ℚ → ℚ) (eps : ℚ) (b : Bool)
    (st : DecState) : (checkConvergence f eps b st).2.numSteps = st.numSteps := by
  unfold checkConvergence
  split
  · rfl
  · cases st.oldApprox <;> cases b <;>
      simp [computeApprox_numSteps]

theorem factorizeNMFEDIter_numSteps (st : DecState) :
    (factorizeNMFEDIter st).numSteps = st.numSteps := rfl

theorem factorizeNMDEDIter_numSteps (st : DecState) :
    (factorizeNMDEDIter st).numSteps = st.numSteps := rfl

theorem factorizeNMDKLIter_numSteps (st : DecState) :
    (factorizeNMDKLIter st).numSteps = st.numSteps := by
  unfold factorizeNMDKLIter
  split <;> split <;> simp [computeApprox_numSteps]

theorem factorizeNMFEDSparseIter_numSteps (f : ℚ → ℚ) (st : DecState) :
    (factorizeNMFEDSparseIter f st).numSteps = st.numSteps := rfl

theorem factorizeNMFKLSparseIter_numSteps (f : ℚ → ℚ) (st : DecState) :
    (factorizeNMFKLSparseIter f st).numSteps = st.numSteps := rfl

theorem factorizeNMFKLTempContIter_numSteps (st : DecState) :
    (factorizeNMFKLTempContIter st).numSteps = st.numSteps := rfl

theorem factorizeNMFEDSparseNormIter_numSteps (f : ℚ → ℚ) (st : DecState) :
    (factorizeNMFEDSparseNormIter f st).numSteps = st.numSteps := rfl

theorem factorizeNMFEDStep_numSteps (f : ℚ → ℚ) (eps : ℚ) (st : DecState) :
    ((factorizeNMFEDStep f eps st).1).numSteps = st.numSteps := by
  by_cases hc : (checkConvergence f eps true st).1 <;>
    simp [factorizeNMFEDStep, hc, checkConvergence_numSteps, factorizeNMFEDIter_numSteps]

theorem factorizeNMDEDStep_numSteps (f : ℚ → ℚ) (eps : ℚ) (st : DecState) :
    ((factorizeNMDEDStep f eps st).1).numSteps = st.numSteps := by
  by_cases hc : (checkConvergence f eps false (computeApprox st)).1 <;>
    simp [factorizeNMDEDStep, hc, checkConvergence_numSteps, factorizeNMDEDIter_numSteps,
      computeApprox_numSteps]

theorem factorizeNMDKLStep_numSteps (f : ℚ → ℚ) (eps : ℚ) (st : DecState) :
    ((factorizeNMDKLStep f eps st).1).numSteps = st.numSteps := by
  by_cases hc : (checkConvergence f eps false (computeApprox st)).1 <;>
    simp [factorizeNMDKLStep, hc, checkConvergence_numSteps, factorizeNMDKLIter_numSteps,
      computeApprox_numSteps]

theorem factorizeNMFEDSparseStep_numSteps (f : ℚ → ℚ) (eps : ℚ)
    (st : DecState) :
    ((factorizeNMFEDSparseStep f eps st).1).numSteps = st.numSteps := by
  by_cases hc : (checkConvergence f eps true st).1 <;>
    simp [factorizeNMFEDSparseStep, hc, checkConvergence_numSteps, factorizeNMFEDSparseIter_numSteps]

theorem factorizeNMFKLSparseStep_numSteps (f : ℚ → ℚ) (eps : ℚ)
    (st : DecState) :
    ((factorizeNMFKLSparseStep f eps st).1).numSteps = st.numSteps := by
  by_cases hc : (checkConvergence f eps false (computeApprox st)).1 <;>
    simp [factorizeNMFKLSparseStep, hc, checkConvergence_numSteps, factorizeNMFKLSparseIter_numSteps,
      computeApprox_numSteps]

theorem factorizeNMFKLTempContStep_numSteps (f : ℚ → ℚ) (eps : ℚ)
    (st : DecState) :
    ((factorizeNMFKLTempContStep f eps st).1).numSteps = st.numSteps := by
  by_cases hc : (checkConvergence f eps false (computeApprox st)).1 <;>
    simp [factorizeNMFKLTempContStep, hc, checkConvergence_numSteps, factorizeNMFKLTempContIter_numSteps,
      computeApprox_numSteps]

theorem factorizeNMFEDSparseNormStep_numSteps (f : ℚ → ℚ) (eps : ℚ)
    (st : DecState) :
    ((factorizeNMFEDSparseNormStep f eps st).1).numSteps = st.numSteps := by
  by_cases hc : (checkConvergence f eps true st).1 <;>
    simp [factorizeNMFEDSparseNormStep, hc, checkConvergence_numSteps, factorizeNMFEDSparseNormIter_numSteps]

theorem runDriver_numSteps_le (stepFn : DecState → DecState × Bool)
    (obs : Bool) (delay maxSteps : ℕ)
    (hpres : ∀ s, (stepFn s).1.numSteps = s.numSteps) :
    ∀ fuel st, st.numSteps ≤ maxSteps →
      (runDriver stepFn obs delay maxSteps fuel st).1.numSteps ≤ maxSteps := by
  intro fuel
  induction fuel with
  | zero => intro st h; exact h
  | succ fuel ih =>
      intro st h
      unfold runDriver
      split
      · rename_i hlt
        by_cases hc : (stepFn st).2
        · simp only [hc, if_true]
          rw [hpres]
          exact h
        · simp only [hc, if_false]
          apply ih
          show (nextItStep obs delay maxSteps (stepFn st).1).1.numSteps ≤ maxSteps
          unfold nextItStep
          simp only []
          rw [hpres]
          omega
      · exact h

theorem runDriver_numSteps_ge (stepFn : DecState → DecState × Bool)
    (obs : Bool) (delay maxSteps : ℕ)
    (hpres : ∀ s, (stepFn s).1.numSteps = s.numSteps) :
    ∀ fuel st,
      st.numSteps ≤ (runDriver stepFn obs delay maxSteps fuel st).1.numSteps := by
  intro fuel
  induction fuel with
  | zero => intro st; exact le_refl _
  | succ fuel ih =>
      intro st
      unfold runDriver
      split
      · by_cases hc : (stepFn st).2
        · simp only [hc, if_true]
          rw [hpres]
        · simp only [hc, if_false]
          calc st.numSteps
              ≤ (nextItStep obs delay maxSteps (stepFn st).1).1.numSteps := by
                unfold nextItStep
                simp only []
                rw [hpres]
                omega
            _ ≤ _ := ih _
      · exact le_refl _

theorem runDriver_trace_noObs (stepFn : DecState → DecState × Bool)
    (delay maxSteps : ℕ) :
    ∀ fuel st, (runDriver stepFn false delay maxSteps fuel st).2 = [] := by
  intro fuel
  induction fuel with
  | zero => intro st; rfl
  | succ fuel ih =>
      intro st
      unfold runDriver
      simp only []
      split
      · by_cases hc : (stepFn st).2
        · simp [hc]
        · simp [hc, nextItStep, ih]
      · rfl

theorem nextItStep_numSteps (obs : Bool) (delay maxSteps : ℕ)
    (st : DecState) :
    (nextItStep obs delay maxSteps st).1.numSteps = st.numSteps + 1 := rfl

theorem runDriver_trace (stepFn : DecState → DecState × Bool)
    (delay maxSteps : ℕ)
    (hpres : ∀ s, (stepFn s).1.numSteps = s.numSteps) :
    ∀ fuel st,
      (runDriver stepFn true delay maxSteps fuel st).2
        = ((List.range' (st.numSteps + 1)
              ((runDriver stepFn true delay maxSteps fuel st).1.numSteps
                - st.numSteps)).filter
            (fun k => k % delay == 0)).map
            (fun k : ℕ => (k : ℚ) / (maxSteps : ℚ)) := by
  intro fuel
  induction fuel with
  | zero => intro st; simp [runDriver]
  | succ fuel ih =>
      intro st
      unfold runDriver
      simp only []
      by_cases hguard : st.numSteps < maxSteps
      · simp only [hguard, if_true]
        by_cases hc : (stepFn st).2
        · simp [hc, hpres]
        · simp only [hc, Bool.false_eq_true, if_false]
          have hn1 : (nextItStep true delay maxSteps (stepFn st).1).1.numSteps
              = st.numSteps + 1 := by
            rw [nextItStep_numSteps, hpres]
          have hge : (nextItStep true delay maxSteps (stepFn st).1).1.numSteps
              ≤ (runDriver stepFn true delay maxSteps fuel
                  (nextItStep true delay maxSteps (stepFn st).1).1).1.numSteps :=
            runDriver_numSteps_ge stepFn true delay maxSteps hpres fuel _
          have hNs : (runDriver stepFn true delay maxSteps fuel
                (nextItStep true delay maxSteps (stepFn st).1).1).1.numSteps
                - st.numSteps
              = ((runDriver stepFn true delay maxSteps fuel
                  (nextItStep true delay maxSteps (stepFn st).1).1).1.numSteps
                - (st.numSteps + 1)) + 1 := by omega
          have hemit : (nextItStep true delay maxSteps (stepFn st).1).2
              = if (st.numSteps + 1) % delay = 0 then
                  [((st.numSteps + 1 : ℕ) : ℚ) / (maxSteps : ℚ)]
                else [] := by
            unfold nextItStep
            simp [hpres]
          rw [hemit, ih, hn1, hNs, List.range'_succ]
          by_cases hd : (st.numSteps + 1) % delay = 0
          · simp [hd]
          · simp [hd]
      · simp [hguard]

theorem canonicalTrace_pairwise (n delay maxSteps : ℕ) :
    List.Pairwise (· ≤ ·) (canonicalTrace n delay maxSteps) := by
  unfold canonicalTrace
  refine List.Pairwise.map _ (fun a b hab => ?_)
    (List.Pairwise.sublist (List.filter_sublist _)
      (List.pairwise_lt_range' 1 n 1 (by omega)))
  rw [div_eq_mul_inv, div_eq_mul_inv]
  exact mul_le_mul_of_nonneg_right
    (by exact_mod_cast Nat.le_of_lt hab)
    (inv_nonneg.mpr (Nat.cast_nonneg _))

theorem canonicalTrace_mem_le_one (n delay maxSteps : ℕ) (hn : n ≤ maxSteps) :
    ∀ q ∈ canonicalTrace n delay maxSteps, q ≤ 1 := by
  intro q hq
  unfold canonicalTrace at hq
  simp only [List.mem_map, List.mem_filter] at hq
  obtain ⟨k, ⟨hk, hkd⟩, rfl⟩ := hq
  rw [List.mem_range'_1] at hk
  have hmp : (0:ℚ) < (maxSteps:ℚ) := by
    have h0 : 0 < maxSteps := by omega
    exact_mod_cast h0
  rw [div_le_one hmp]
  exact_mod_cast (by omega : k ≤ maxSteps)

theorem canonicalTrace_count_one (n delay maxSteps : ℕ) (hn : n ≤ maxSteps) :
    (canonicalTrace n delay maxSteps).count 1
      = if n = maxSteps ∧ maxSteps % delay = 0 ∧ 0 < maxSteps then 1 else 0 := by
  unfold canonicalTrace
  by_cases hm0 : 0 < maxSteps
  · have hne : (maxSteps:ℚ) ≠ 0 := ne_of_gt (by exact_mod_cast hm0)
    have hinj : Function.Injective (fun k : ℕ => (k:ℚ)/(maxSteps:ℚ)) := by
      intro a b hab
      simp only [] at hab
      have h2 : (a:ℚ) = (b:ℚ) := by
        field_simp [hne] at hab
        exact_mod_cast hab
      exact_mod_cast h2
    have h1 : (1:ℚ) = ((maxSteps : ℕ):ℚ)/(maxSteps:ℚ) := (div_self hne).symm
    rw [h1, List.count_map_of_injective _ _ hinj]
    by_cases hd : maxSteps % delay = 0
    · by_cases hmem : maxSteps ∈ List.range' 1 n
      · rw [List.count_filter (by simp [hd]),
          List.count_eq_one_of_mem (List.nodup_range' ..) hmem]
        have hnm : n = maxSteps := by
          rw [List.mem_range'_1] at hmem
          omega
        simp [hnm, hd, hm0]
      · rw [List.count_eq_zero_of_not_mem
          (fun hmf => hmem (List.mem_filter.mp hmf).1)]
        have hnm : ¬ n = maxSteps := by
          intro h
          apply hmem
          rw [List.mem_range'_1]
          omega
        simp [hnm]
    · rw [List.count_eq_zero_of_not_mem (fun hmf => ?_)]
      · simp [hd]
      · rw [List.mem_filter] at hmf
        simp [hd] at hmf
  · have hn0 : n = 0 := by omega
    have hm00 : maxSteps = 0 := by omega
    subst hn0
    subst hm00
    simp

theorem factorizeNMFEDWUpdate_const (st : DecState) (w : Mat)
    (hc : st.wConstant = true) : factorizeNMFEDWUpdate st w = w := by
  simp [factorizeNMFEDWUpdate, hc]

theorem factorizeNMFEDWUpdate_frozen (st : DecState) (w : Mat) (j : ℕ)
    (hj : st.wColConstant j = true) (i : ℕ) :
    (factorizeNMFEDWUpdate st w).entry i j = w.entry i j := by
  unfold factorizeNMFEDWUpdate
  split
  · rfl
  · simp [hj]

theorem set_head_self (l : List Mat) : l.set 0 (l[0]?.getD mzero) = l := by
  cases l <;> simp

theorem set0_col_frame (wl : List Mat) (X : Mat) (j : ℕ)
    (hX : ∀ i, X.entry i j = (wl.getD 0 mzero).entry i j) (p i : ℕ) :
    ((wl.set 0 X).getD p mzero).entry i j = (wl.getD p mzero).entry i j := by
  rw [getD_set_eq_ite]
  by_cases hcond : p = 0 ∧ 0 < wl.length
  · rw [if_pos hcond, hX i, hcond.1]
  · rw [if_neg hcond]

theorem factorizeNMFEDIter_w_const (st : DecState) (hc : st.wConstant = true) :
    (factorizeNMFEDIter st).w = st.w := by
  show st.w.set 0 (factorizeNMFEDWUpdate st (st.w.getD 0 mzero)) = st.w
  rw [factorizeNMFEDWUpdate_const st _ hc, set_getD_self]

theorem factorizeNMFEDSparseIter_w_const (f : ℚ → ℚ) (st : DecState)
    (hc : st.wConstant = true) : (factorizeNMFEDSparseIter f st).w = st.w := by
  show st.w.set 0 (factorizeNMFEDWUpdate st (st.w.getD 0 mzero)) = st.w
  rw [factorizeNMFEDWUpdate_const st _ hc, set_getD_self]

theorem factorizeNMDEDIter_w_const (st : DecState) (hc : st.wConstant = true) :
    (factorizeNMDEDIter st).w = st.w := by
  unfold factorizeNMDEDIter
  simp [hc]

theorem factorizeNMDKLIter_w_const (st : DecState) (hc : st.wConstant = true) :
    (factorizeNMDKLIter st).w = st.w := by
  unfold factorizeNMDKLIter
  simp only [hc]
  by_cases ht : st.t = 1 <;> simp [ht, computeApprox_w]

theorem factorizeNMFKLSparseIter_w_const (f : ℚ → ℚ) (st : DecState)
    (hc : st.wConstant = true) : (factorizeNMFKLSparseIter f st).w = st.w := by
  unfold factorizeNMFKLSparseIter
  simp [hc]
  exact set_head_self st.w

theorem factorizeNMFKLTempContIter_w_const (st : DecState)
    (hc : st.wConstant = true) : (factorizeNMFKLTempContIter st).w = st.w := by
  unfold factorizeNMFKLTempContIter
  simp [hc]
  exact set_head_self st.w

theorem factorizeNMFEDIter_w_col (st : DecState) (j : ℕ)
    (hj : st.wColConstant j = true) (p i : ℕ) :
    ((factorizeNMFEDIter st).w.getD p mzero).entry i j
      = (st.w.getD p mzero).entry i j := by
  show ((st.w.set 0 (factorizeNMFEDWUpdate st (st.w.getD 0 mzero))).getD p
      mzero).entry i j = _
  exact set0_col_frame _ _ _ (factorizeNMFEDWUpdate_frozen st _ j hj) p i

theorem factorizeNMFEDSparseIter_w_col (f : ℚ → ℚ) (st : DecState) (j : ℕ)
    (hj : st.wColConstant j = true) (p i : ℕ) :
    ((factorizeNMFEDSparseIter f st).w.getD p mzero).entry i j
      = (st.w.getD p mzero).entry i j := by
  show ((st.w.set 0 (factorizeNMFEDWUpdate st (st.w.getD 0 mzero))).getD p
      mzero).entry i j = _
  exact set0_col_frame _ _ _ (factorizeNMFEDWUpdate_frozen st _ j hj) p i

theorem factorizeNMDEDWPhaseStep_col (st : DecState) (j : ℕ)
    (hj : st.wColConstant j = true) (acc : List Mat × Mat) (a : ℕ) (p i : ℕ) :
    (((factorizeNMDEDWPhaseStep st acc a).1.getD p mzero)).entry i j
      = ((acc.1.getD p mzero)).entry i j := by
  unfold factorizeNMDEDWPhaseStep
  simp only []
  rw [getD_set_eq_ite]
  by_cases hcond : p = a ∧ a < acc.1.length
  · rw [if_pos hcond]
    simp only [hj]
    rw [hcond.1]
    simp
  · rw [if_neg hcond]

theorem factorizeNMDKLWPhaseStep_col (st : DecState) (vOA : Mat) (j : ℕ)
    (hj : st.wColConstant j = true) (acc : List Mat × Mat × Mat) (a : ℕ)
    (p i : ℕ) :
    (((factorizeNMDKLWPhaseStep st vOA acc a).1.getD p mzero)).entry i j
      = ((acc.1.getD p mzero)).entry i j := by
  unfold factorizeNMDKLWPhaseStep
  simp only []
  by_cases ht : 1 < st.t <;>
    · simp only [ht, if_true, if_false, Bool.false_eq_true]
      rw [getD_set_eq_ite]
      by_cases hcond : p = a ∧ a < acc.1.length
      · rw [if_pos hcond]
        simp only [hj]
        rw [hcond.1]
        simp
      · rw [if_neg hcond]

theorem foldl_nmdedW_col (st : DecState) (j : ℕ)
    (hj : st.wColConstant j = true) :
    ∀ (l : List ℕ) (acc : List Mat × Mat),
      (∀ p i, ((acc.1.getD p mzero)).entry i j = ((st.w.getD p mzero)).entry i j) →
      ∀ p i,
        (((l.foldl (factorizeNMDEDWPhaseStep st) acc).1.getD p mzero)).entry i j
          = ((st.w.getD p mzero)).entry i j := by
  intro l
  induction l with
  | nil => intro acc hacc p i; exact hacc p i
  | cons a l ih =>
      intro acc hacc p i
      rw [List.foldl_cons]
      apply ih
      intro p' i'
      rw [factorizeNMDEDWPhaseStep_col st j hj acc a p' i']
      exact hacc p' i'

theorem foldl_nmdklW_col (st : DecState) (vOA : Mat) (j : ℕ)
    (hj : st.wColConstant j = true) :
    ∀ (l : List ℕ) (acc : List Mat × Mat × Mat),
      (∀ p i, ((acc.1.getD p mzero)).entry i j = ((st.w.getD p mzero)).entry i j) →
      ∀ p i,
        (((l.foldl (factorizeNMDKLWPhaseStep st vOA) acc).1.getD p mzero)).entry i j
          = ((st.w.getD p mzero)).entry i j := by
  intro l
  induction l with
  | nil => intro acc hacc p i; exact hacc p i
  | cons a l ih =>
      intro acc hacc p i
      rw [List.foldl_cons]
      apply ih
      intro p' i'
      rw [factorizeNMDKLWPhaseStep_col st vOA j hj acc a p' i']
      exact hacc p' i'

theorem factorizeNMDEDIter_w_col (st : DecState) (j : ℕ)
    (hj : st.wColConstant j = true) (p i : ℕ) :
    ((factorizeNMDEDIter st).w.getD p mzero).entry i j
      = (st.w.getD p mzero).entry i j := by
  unfold factorizeNMDEDIter
  simp only []
  by_cases hc : st.wConstant
  · rw [if_pos hc]
  · rw [if_neg hc]
    exact foldl_nmdedW_col st j hj _ _ (fun _ _ => rfl) p i

theorem factorizeNMDKLIter_w_col (st : DecState) (j : ℕ)
    (hj : st.wColConstant j = true) (p i : ℕ) :
    ((factorizeNMDKLIter st).w.getD p mzero).entry i j
      = (st.w.getD p mzero).entry i j := by
  unfold factorizeNMDKLIter
  simp only []
  by_cases ht : st.t = 1 <;>
    [rw [if_pos ht]; rw [if_neg ht]] <;>
    simp only [computeApprox_w] <;>
    by_cases hc : st.wConstant <;>
    [rw [if_pos hc]; rw [if_neg hc]; rw [if_pos hc]; rw [if_neg hc]] <;>
    first
      | rfl
      | exact foldl_nmdklW_col st (Mat.elemDiv st.v st.approx) j hj _ _
          (fun _ _ => rfl) p i

theorem factorizeNMFKLSparseIter_w_col (f : ℚ → ℚ) (st : DecState) (j : ℕ)
    (hj : st.wColConstant j = true) (p i : ℕ) :
    ((factorizeNMFKLSparseIter f st).w.getD p mzero).entry i j
      = (st.w.getD p mzero).entry i j := by
  unfold factorizeNMFKLSparseIter
  simp only []
  by_cases hc : st.wConstant
  · rw [if_pos hc]
    exact set0_col_frame _ _ _ (fun _ => rfl) p i
  · rw [if_neg hc]
    refine set0_col_frame _ _ _ (fun i' => ?_) p i
    simp [hj]

theorem factorizeNMFKLTempContIter_w_col (st : DecState) (j : ℕ)
    (hj : st.wColConstant j = true) (p i : ℕ) :
    ((factorizeNMFKLTempContIter st).w.getD p mzero).entry i j
      = (st.w.getD p mzero).entry i j := by
  unfold factorizeNMFKLTempContIter
  simp only []
  by_cases hc : st.wConstant
  · rw [if_pos hc]
    exact set0_col_frame _ _ _ (fun _ => rfl) p i
  · rw [if_neg hc]
    refine set0_col_frame _ _ _ (fun i' => ?_) p i
    simp [hj]

/-- C1 counterexample: the claim states that every elementwise division in
a W or H update uses a denominator that, when it would be ≤ 0, was
replaced by DIVISOR_FLOOR, naming in particular the W-update divisor
`hRowSum` of the KL driver.  At the reachable state `stC1` (H generated
with an all-zero row 0, W not constant, column 0 not frozen) the KL
driver's W update divides `wUpdateNum(i,0)` by the raw row sum
`klWRowSumDivisor stC1.h 0 = 0`, a denominator ≤ 0 that is not replaced by
`divisorFloor`: the guard the claim asserts is absent at this site
(Deconvolver.cpp lines 252-259). -/
theorem C1_counterexample :
    klWRowSumDivisor stC1.h 0 = 0 ∧ stC1.wConstant = false ∧
    stC1.wColConstant 0 = false ∧ divisorFloor ≠ 0 := by
  refine ⟨?_, rfl, rfl, ?_⟩
  · norm_num [klWRowSumDivisor, Mat.rowSum, qsum, stC1, baseState, m22,
      Mat.ofFn]
  · norm_num [divisorFloor]

/-- C1 amended: every elementwise division of the update drivers that the
source guards (the `denom <= 0.0` sites of the ED family, the sparse and
continuity H updates, and the normalized-basis driver) uses a strictly
positive denominator after the DIVISOR_FLOOR substitution; the W column
sums of the NMD-KL H update are replaced only when exactly zero, which
still yields a positive divisor whenever W is entrywise non-negative.  The
W-update divisors `hRowSum` (KL driver) and `hRowSums[j]` (KL-sparse and
KL-continuity drivers) remain unguarded raw row sums
(`klWRowSumDivisor`). -/
theorem C1_amended :
    (∀ (m : Mat) (i j : ℕ), 0 < floorMatEntry m i j) ∧
    (∀ d : ℚ, 0 < floorDenom d) ∧
    (∀ (wp : Mat) (i : ℕ), 0 ≤ Mat.colSum wp i → 0 < klHColSumDenom wp i) :=
  ⟨floorMatEntry_pos, floorDenom_pos, klHColSumDenom_pos⟩

/-- C1 amended witness: the guarded KL H-update column-sum divisor is
positive at a concrete non-negative W. -/
theorem C1_amended_witness :
    0 ≤ Mat.colSum matC1w 0 ∧ 0 < klHColSumDenom matC1w 0 :=
  ⟨by norm_num [Mat.colSum, qsum, matC1w, m11, Mat.ofFn],
   C1_amended.2.2 matC1w 0
     (by norm_num [Mat.colSum, qsum, matC1w, m11, Mat.ofFn])⟩

/-- C2 counterexample: the claim states that with `w_constant` true no
entry of any W^p is written during an iteration of any of the six
drivers.  At the state `stC2` (with `w_constant = true` and W = (2)), one
iteration of the EuclideanDistanceSparseNormalized driver rewrites the
single W entry from 2 to 1: its per-iteration column normalization and its
W-update loop never consult `_wConstant` (Deconvolver.cpp lines 807-854). -/
theorem C2_counterexample :
    stC2.wConstant = true ∧
    (stC2.w.getD 0 mzero).entry 0 0 = 2 ∧
    ((factorizeNMFEDSparseNormIter ratSqrt stC2).w.getD 0 mzero).entry 0 0 = 1 := by
  refine ⟨rfl, rfl, ?_⟩
  unfold factorizeNMFEDSparseNormIter
  simp only []
  rw [getD_set_eq_ite]
  norm_num [stC2, baseState, m11, Mat.ofFn, Mat.mwm, Mat.matMul, Mat.mulT,
    Mat.dotColCol, Mat.entryT, Mat.zeros, mzero, qsum, floorDenom,
    divisorFloor, ratSqrt_four]

/-- C2 amended: for the five drivers other than
EuclideanDistanceSparseNormalized (ED with t = 1, NMD-ED, KL, KL-sparse,
KL-continuity), an iteration writes no W^p when `w_constant` is true, and
leaves column j of every W^p identical when `w_col_constant[j]` is true.
The EuclideanDistanceSparseNormalized driver rescales every W column each
iteration regardless of both flags and honors only `w_col_constant` in its
multiplicative update loop. -/
theorem C2_amended (f : ℚ → ℚ) (st : DecState) :
    (st.wConstant = true →
      (factorizeNMFEDIter st).w = st.w ∧
      (factorizeNMFEDSparseIter f st).w = st.w ∧
      (factorizeNMDEDIter st).w = st.w ∧
      (factorizeNMDKLIter st).w = st.w ∧
      (factorizeNMFKLSparseIter f st).w = st.w ∧
      (factorizeNMFKLTempContIter st).w = st.w) ∧
    (∀ j, st.wColConstant j = true → ∀ p i,
      ((factorizeNMFEDIter st).w.getD p mzero).entry i j
        = (st.w.getD p mzero).entry i j ∧
      ((factorizeNMFEDSparseIter f st).w.getD p mzero).entry i j
        = (st.w.getD p mzero).entry i j ∧
      ((factorizeNMDEDIter st).w.getD p mzero).entry i j
        = (st.w.getD p mzero).entry i j ∧
      ((factorizeNMDKLIter st).w.getD p mzero).entry i j
        = (st.w.getD p mzero).entry i j ∧
      ((factorizeNMFKLSparseIter f st).w.getD p mzero).entry i j
        = (st.w.getD p mzero).entry i j ∧
      ((factorizeNMFKLTempContIter st).w.getD p mzero).entry i j
        = (st.w.getD p mzero).entry i j) :=
  ⟨fun hc =>
    ⟨factorizeNMFEDIter_w_const st hc,
     factorizeNMFEDSparseIter_w_const f st hc,
     factorizeNMDEDIter_w_const st hc,
     factorizeNMDKLIter_w_const st hc,
     factorizeNMFKLSparseIter_w_const f st hc,
     factorizeNMFKLTempContIter_w_const st hc⟩,
   fun j hj p i =>
    ⟨factorizeNMFEDIter_w_col st j hj p i,
     factorizeNMFEDSparseIter_w_col f st j hj p i,
     factorizeNMDEDIter_w_col st j hj p i,
     factorizeNMDKLIter_w_col st j hj p i,
     factorizeNMFKLSparseIter_w_col f st j hj p i,
     factorizeNMFKLTempContIter_w_col st j hj p i⟩⟩

/-- C2 amended witness at a concrete state with both freeze flags set. -/
theorem C2_amended_witness :
    (factorizeNMFEDIter stC2w).w = stC2w.w ∧
    ((factorizeNMDKLIter stC2w).w.getD 0 mzero).entry 0 0
      = (stC2w.w.getD 0 mzero).entry 0 0 :=
  ⟨((C2_amended ratSqrt stC2w).1 (by decide)).1,
   (((C2_amended ratSqrt stC2w).2 0 (by decide)) 0 0).2.2.2.1⟩

/-- C3: evaluation of `normalizeMatrices` at the failing input `stC3`
(t = 2, H = (3 4), W^0 = W^1 = (2), Frobenius norm of H equal to 5).  The
code multiplies W^0 by (5 - 16/25) and W^1 by 5, and its `hNormRight`
vector has `hNormRight[0] = 16/25`, contradicting both the claim and the
code's own comment "Take care of p=0 by setting hNormRight[0] := 0"
(Deconvolver.cpp line 963): the cumulative right-norm sums are written one
index too low (`hNormRight[p - 1]` instead of `hNormRight[p]`, lines
966-970). -/
theorem C3_divergence_eval :
    ((normalizeMatrices ratSqrt stC3).w.getD 0 mzero).entry 0 0 = 218 / 25 ∧
    ((normalizeMatrices ratSqrt stC3).w.getD 1 mzero).entry 0 0 = 10 ∧
    hNormRightFun (normalizeMatrices ratSqrt stC3).h stC3.t 0 = 16 / 25 := by
  refine ⟨?_, ?_, ?_⟩ <;>
    norm_num [normalizeMatrices, hNormRightFun, hNormRightLoop, Mat.sumSq,
      Mat.dotColCol, stC3, baseState, m11, m12, Mat.ofFn, mzero, qsum,
      ratSqrt_twentyfive, List.range_succ, List.range']

/-- C4: the convergence check of the source behaves exactly as the claim
words it: `checkConvergence` and the spec-side `checkConvergenceSpec`
agree on the returned flag and on the updated state for every tolerance,
recompute flag and engine state. -/
theorem C4_checkConvergence_equiv (f : ℚ → ℚ) (eps : ℚ) (b : Bool)
    (st : DecState) :
    checkConvergence f eps b st = checkConvergenceSpec f eps b st := by
  by_cases he : eps ≤ 0
  · simp [checkConvergence, checkConvergenceSpec, he]
  · cases hO : st.oldApprox <;>
      simp [checkConvergence, checkConvergenceSpec, he, hO]

theorem computeWpHOf_entry (w : List Mat) (h : Mat) (p : ℕ) (target : Mat)
    (i j : ℕ) (hi : i < (w.getD p mzero).rows)
    (hr : target.rows = (w.getD p mzero).rows) (hj : j < h.cols) :
    (computeWpHOf w h p target).entry i j
      = if j < p then 0
        else qsum (w.getD p mzero).cols
          (fun l => (w.getD p mzero).entry i l * h.entry l (j - p)) := by
  unfold computeWpHOf Mat.mwm
  simp only []
  by_cases hjp : j < p
  · rw [if_pos hjp]
    rw [if_neg (by omega :
      ¬ (0 ≤ i ∧ i < 0 + (w.getD p mzero).rows ∧ p ≤ j ∧
        j < p + (h.cols - p)))]
    rw [if_pos ⟨hjp, by omega⟩]
  · rw [if_neg hjp]
    rw [if_pos (by omega :
      0 ≤ i ∧ i < 0 + (w.getD p mzero).rows ∧ p ≤ j ∧ j < p + (h.cols - p))]
    apply qsum_congr
    intro l hl
    unfold Mat.entryT
    norm_num

theorem computeWpHOf_rows (w : List Mat) (h : Mat) (p : ℕ) (target : Mat) :
    (computeWpHOf w h p target).rows = target.rows := rfl

theorem computeWpHOf_entry_irrel (w : List Mat) (h : Mat) (p : ℕ)
    (t1 t2 : Mat) (h1 : t1.rows = (w.getD p mzero).rows)
    (h2 : t2.rows = (w.getD p mzero).rows) (i j : ℕ)
    (hi : i < (w.getD p mzero).rows) (hj : j < h.cols) :
    (computeWpHOf w h p t1).entry i j = (computeWpHOf w h p t2).entry i j := by
  rw [computeWpHOf_entry w h p t1 i j hi h1 hj,
    computeWpHOf_entry w h p t2 i j hi h2 hj]

theorem qsum_eq_map_sum (g : ℕ → ℚ) (n : ℕ) :
    ((List.range n).map g).sum = qsum n g := by
  induction n with
  | zero => rfl
  | succ n ih => rw [List.range_succ, qsum]; simp [ih]

theorem foldl_wpH_entry (st : DecState) (i j : ℕ)
    (hi : i < st.v.rows) (hj : j < st.h.cols) :
    ∀ (l : List ℕ), (∀ p ∈ l, (st.w.getD p mzero).rows = st.v.rows) →
      ∀ (acc : Mat × Mat), acc.2.rows = st.v.rows →
      ((l.foldl
          (fun a p =>
            (Mat.add a.1 (computeWpHOf st.w st.h p a.2),
              computeWpHOf st.w st.h p a.2)) acc).1).entry i j
        = acc.1.entry i j
          + (l.map (fun p =>
              (computeWpHOf st.w st.h p
                (Mat.zeros st.v.rows st.v.cols)).entry i j)).sum := by
  intro l
  induction l with
  | nil => intro _ acc _; simp
  | cons a l ih =>
      intro hmem acc hacc
      rw [List.foldl_cons, ih (fun p hp => hmem p (List.mem_cons_of_mem a hp))
        _ (by rw [computeWpHOf_rows]; exact hacc)]
      have hrows : (st.w.getD a mzero).rows = st.v.rows :=
        hmem a (List.mem_cons_self a l)
      rw [show (Mat.add acc.1 (computeWpHOf st.w st.h a acc.2)).entry i j
          = acc.1.entry i j + (computeWpHOf st.w st.h a acc.2).entry i j
        from rfl]
      rw [computeWpHOf_entry_irrel st.w st.h a acc.2
        (Mat.zeros st.v.rows st.v.cols) (by rw [hacc, hrows])
        (by rw [hrows]; rfl) i j (by omega) hj]
      simp [add_assoc]

/-- C5: `computeWpH(p, out)` zeroes columns 0..p-1 and writes into columns
p..N-1 the product of W^p with columns 0..N-p-1 of H; and `computeApprox`
produces W⁰·H for t = 1 and the sum of all `computeWpH` terms otherwise,
at every in-range position of a well-formed engine state. -/
theorem C5_shifted_convolution (st : DecState) (hwf : WellFormed st)
    (p i j : ℕ) (hp : p < st.t) (hi : i < st.v.rows) (hj : j < st.v.cols)
    (target : Mat) (ht : target.rows = st.v.rows) :
    ((computeWpH st p target).entry i j
      = if j < p then 0
        else qsum (st.w.getD p mzero).cols
          (fun l => (st.w.getD p mzero).entry i l * st.h.entry l (j - p))) ∧
    ((computeApprox st).approx.entry i j
      = if st.t = 1 then
          qsum (st.w.getD 0 mzero).cols
            (fun l => (st.w.getD 0 mzero).entry i l * st.h.entry l j)
        else
          qsum st.t (fun q =>
            (computeWpH st q (Mat.zeros st.v.rows st.v.cols)).entry i j)) := by
  obtain ⟨hhc, har, hac, hwl, htv, ht0, hwp⟩ := hwf
  have hip : i < (st.w.getD p mzero).rows := by rw [(hwp p hp).1]; exact hi
  have hjh : j < st.h.cols := by rw [hhc]; exact hj
  constructor
  · rw [show computeWpH st p target = computeWpHOf st.w st.h p target from rfl,
      computeWpHOf_entry st.w st.h p target i j hip
        (by rw [ht, (hwp p hp).1]) hjh]
  · unfold computeApprox
    by_cases ht1 : st.t = 1
    · rw [if_pos ht1, if_pos ht1]
      rfl
    · rw [if_neg ht1, if_neg ht1]
      simp only []
      rw [foldl_wpH_entry st i j hi hjh (List.range st.t)
        (fun q hq => (hwp q (List.mem_range.mp hq)).1) _ rfl]
      simp only [computeWpH, ← qsum_eq_map_sum]
      exact zero_add _

/-- C5 witness: the shifted-convolution formulas at a concrete depth-2
state, for p = 1 and position (0, 1). -/
theorem C5_witness :
    WellFormed stC5 ∧
    ((computeWpH stC5 1 (Mat.zeros stC5.v.rows stC5.v.cols)).entry 0 1
      = if (1:ℕ) < 1 then 0
        else qsum (stC5.w.getD 1 mzero).cols
          (fun l => (stC5.w.getD 1 mzero).entry 0 l * stC5.h.entry l (1 - 1))) ∧
    ((computeApprox stC5).approx.entry 0 1
      = if stC5.t = 1 then
          qsum (stC5.w.getD 0 mzero).cols
            (fun l => (stC5.w.getD 0 mzero).entry 0 l * stC5.h.entry l 1)
        else
          qsum stC5.t (fun q =>
            (computeWpH stC5 q (Mat.zeros stC5.v.rows stC5.v.cols)).entry 0 1)) :=
  ⟨⟨rfl, rfl, rfl, rfl, by decide, by decide, by decide⟩,
   (C5_shifted_convolution stC5
      ⟨rfl, rfl, rfl, rfl, by decide, by decide, by decide⟩
      1 0 1 (by decide) (by decide) (by decide)
      (Mat.zeros stC5.v.rows stC5.v.cols) rfl).1,
   (C5_shifted_convolution stC5
      ⟨rfl, rfl, rfl, rfl, by decide, by decide, by decide⟩
      1 0 1 (by decide) (by decide) (by decide)
      (Mat.zeros stC5.v.rows stC5.v.cols) rfl).2⟩

theorem hNormRightFun_t1 (h : Mat) : hNormRightFun h 1 0 = 0 := rfl

theorem qsum_div (n : ℕ) (g : ℕ → ℚ) (c : ℚ) :
    qsum n (fun l => g l / c) = qsum n g / c := by
  rw [qsum_eq_sum, qsum_eq_sum, Finset.sum_div]

theorem normalizeMatrices_h (f : ℚ → ℚ) (st : DecState) :
    (normalizeMatrices f st).h
      = { st.h with entry := fun i j =>
          if i < st.h.rows ∧ j < st.h.cols then
            st.h.entry i j / f (Mat.sumSq st.h)
          else st.h.entry i j } := rfl

theorem normalizeMatrices_w0_t1 (f : ℚ → ℚ) (st : DecState)
    (ht : st.t = 1) :
    (normalizeMatrices f st).w.getD 0 mzero
      = { st.w.getD 0 mzero with entry := fun i j =>
          if i < (st.w.getD 0 mzero).rows ∧ j < (st.w.getD 0 mzero).cols then
            (st.w.getD 0 mzero).entry i j * (f (Mat.sumSq st.h) - 0)
          else (st.w.getD 0 mzero).entry i j } := by
  unfold normalizeMatrices
  simp only []
  rw [ht, show List.range 1 = [0] by simp [List.range_succ]]
  simp only [List.map_cons, List.map_nil, List.getD_cons_zero,
    hNormRightFun_t1]

/-- C7: for t = 1, with the square root exact at the Frobenius norm of H
and that norm positive, `normalizeMatrices` leaves every entry of the
product W⁰·H unchanged and leaves H with Frobenius norm exactly 1. -/
theorem C7_normalize_product_invariant (f : ℚ → ℚ) (st : DecState)
    (ht : st.t = 1) (hwc : (st.w.getD 0 mzero).cols = st.h.rows)
    (hq : f (Mat.sumSq st.h) * f (Mat.sumSq st.h) = Mat.sumSq st.h)
    (hpos : 0 < f (Mat.sumSq st.h)) (hone : f 1 = 1) :
    (∀ i j, i < (st.w.getD 0 mzero).rows → j < st.h.cols →
      (Mat.matMul ((normalizeMatrices f st).w.getD 0 mzero)
        ((normalizeMatrices f st).h)).entry i j
        = (Mat.matMul (st.w.getD 0 mzero) st.h).entry i j) ∧
    f (Mat.sumSq ((normalizeMatrices f st).h)) = 1 := by
  have hc : f (Mat.sumSq st.h) ≠ 0 := ne_of_gt hpos
  constructor
  · intro i j hi hj
    rw [normalizeMatrices_w0_t1 f st ht, normalizeMatrices_h]
    unfold Mat.matMul
    simp only []
    apply qsum_congr
    intro l hl
    rw [if_pos ⟨hi, hl⟩, if_pos ⟨by omega, hj⟩, sub_zero]
    field_simp
    ring
  · have hgoal : Mat.sumSq ((normalizeMatrices f st).h) = 1 := by
      rw [normalizeMatrices_h]
      have hc2 := hc
      revert hq hc2
      generalize f (Mat.sumSq st.h) = c
      intro hq hc2
      unfold Mat.sumSq at hq ⊢
      simp only []
      have hrow : ∀ i, i < st.h.rows →
          qsum st.h.cols (fun j =>
            (if i < st.h.rows ∧ j < st.h.cols then st.h.entry i j / c
              else st.h.entry i j) *
            (if i < st.h.rows ∧ j < st.h.cols then st.h.entry i j / c
              else st.h.entry i j))
            = qsum st.h.cols (fun j => st.h.entry i j * st.h.entry i j)
                / (c * c) := by
        intro i hi
        rw [show qsum st.h.cols (fun j => st.h.entry i j * st.h.entry i j)
              / (c * c)
            = qsum st.h.cols (fun j =>
                (st.h.entry i j * st.h.entry i j) / (c * c))
          from (qsum_div _ _ _).symm]
        apply qsum_congr
        intro l hl
        rw [if_pos ⟨hi, hl⟩, div_mul_div_comm]
      rw [qsum_congr _ _ _ hrow, qsum_div, ← hq,
        div_self (mul_ne_zero hc2 hc2)]
    rw [hgoal]
    exact hone

/-- C7 witness: the normalize post-step at stC7 (H = (3 4), W = (2),
Frobenius norm of H equal to 5), checked at entry (0, 0). -/
theorem C7_witness :
    stC7.t = 1 ∧
    ratSqrt (Mat.sumSq stC7.h) * ratSqrt (Mat.sumSq stC7.h)
      = Mat.sumSq stC7.h ∧
    0 < ratSqrt (Mat.sumSq stC7.h) ∧
    (Mat.matMul ((normalizeMatrices ratSqrt stC7).w.getD 0 mzero)
      ((normalizeMatrices ratSqrt stC7).h)).entry 0 0
      = (Mat.matMul (stC7.w.getD 0 mzero) stC7.h).entry 0 0 ∧
    ratSqrt (Mat.sumSq ((normalizeMatrices ratSqrt stC7).h)) = 1 := by
  have hsum : Mat.sumSq stC7.h = 25 := by
    norm_num [Mat.sumSq, qsum, stC7, baseState, m12, Mat.ofFn]
  have hq : ratSqrt (Mat.sumSq stC7.h) * ratSqrt (Mat.sumSq stC7.h)
      = Mat.sumSq stC7.h := by
    rw [hsum, ratSqrt_twentyfive]
    norm_num
  have hpos : 0 < ratSqrt (Mat.sumSq stC7.h) := by
    rw [hsum, ratSqrt_twentyfive]
    norm_num
  exact ⟨rfl, hq, hpos,
    (C7_normalize_product_invariant ratSqrt stC7 rfl rfl hq hpos
      ratSqrt_one).1 0 0 (by decide) (by decide),
    (C7_normalize_product_invariant ratSqrt stC7 rfl rfl hq hpos
      ratSqrt_one).2⟩

/-- C6: construction raises InvalidArgument exactly when t exceeds the
column count of V; `decompose` raises Unsupported exactly for the
sparse/continuous/normalized variants with t > 1 and InvalidArgument
exactly for an unrecognized cost function; and whenever `decompose`
raises, it raises before any iteration runs, returning the engine state
(W, H, step counter and all) unchanged. -/
theorem C6_error_behavior (f : ℚ → ℚ) (v : Mat) (r t : ℕ)
    (wg hg : ℕ → ℕ → ℚ) (cf : NMFCostFunction) (maxSteps : ℕ) (eps : ℚ)
    (obs : Bool) (st : DecState) :
    (construct f v r t wg hg
        = Except.error ⟨ErrorKind.invalidArgument, invalidSpectraMsg⟩
      ↔ v.cols < t) ∧
    ((decompose f cf maxSteps eps obs st).2.2.map DecError.kind
      = if sparseFamily cf = true ∧ 1 < st.t then some ErrorKind.unsupported
        else if cf = NMFCostFunction.unknown then
          some ErrorKind.invalidArgument
        else none) ∧
    ((decompose f cf maxSteps eps obs st).2.2.isSome = true →
      (decompose f cf maxSteps eps obs st).1 = st) := by
  refine ⟨?_, ?_, ?_⟩
  · unfold construct
    by_cases hvt : v.cols < t
    · simp [hvt]
    · simp [hvt]
  · cases cf with
    | EuclideanDistance =>
        by_cases ht1 : st.t = 1 <;>
          simp [decompose, sparseFamily, finishDecompose, ht1]
    | KLDivergence => simp [decompose, sparseFamily, finishDecompose]
    | EuclideanDistanceSparse =>
        by_cases htt : 1 < st.t <;>
          simp [decompose, sparseFamily, finishDecompose, htt]
    | KLDivergenceSparse =>
        by_cases htt : 1 < st.t <;>
          simp [decompose, sparseFamily, finishDecompose, htt]
    | KLDivergenceContinuous =>
        by_cases htt : 1 < st.t <;>
          simp [decompose, sparseFamily, finishDecompose, htt]
    | EuclideanDistanceSparseNormalized =>
        by_cases htt : 1 < st.t <;>
          simp [decompose, sparseFamily, finishDecompose, htt]
    | unknown => simp [decompose, sparseFamily]
  · cases cf with
    | EuclideanDistance =>
        by_cases ht1 : st.t = 1 <;>
          simp [decompose, finishDecompose, ht1]
    | KLDivergence => simp [decompose, finishDecompose]
    | EuclideanDistanceSparse =>
        by_cases htt : 1 < st.t <;>
          simp [decompose, finishDecompose, htt]
    | KLDivergenceSparse =>
        by_cases htt : 1 < st.t <;>
          simp [decompose, finishDecompose, htt]
    | KLDivergenceContinuous =>
        by_cases htt : 1 < st.t <;>
          simp [decompose, finishDecompose, htt]
    | EuclideanDistanceSparseNormalized =>
        by_cases htt : 1 < st.t <;>
          simp [decompose, finishDecompose, htt]
    | unknown => simp [decompose]

/-- C6 witness: a sparse variant at depth 2 raises and leaves the engine
state untouched. -/
theorem C6_witness :
    (decompose ratSqrt NMFCostFunction.KLDivergenceSparse 10 0 true
      stC6).2.2.isSome = true ∧
    (decompose ratSqrt NMFCostFunction.KLDivergenceSparse 10 0 true
      stC6).1 = stC6 :=
  ⟨rfl,
   (C6_error_behavior ratSqrt (m12 1 1) 1 2 (fun _ _ => 0) (fun _ _ => 0)
      NMFCostFunction.KLDivergenceSparse 10 0 true stC6).2.2 rfl⟩

theorem checkConvergence_nonpos (f : ℚ → ℚ) (eps : ℚ) (b : Bool)
    (st : DecState) (he : eps ≤ 0) :
    checkConvergence f eps b st = (false, st) := by
  unfold checkConvergence
  rw [if_pos he]

theorem factorizeNMFEDStep_noconv (f : ℚ → ℚ) (eps : ℚ) (st : DecState)
    (he : eps ≤ 0) : (factorizeNMFEDStep f eps st).2 = false := by
  unfold factorizeNMFEDStep
  rw [checkConvergence_nonpos f eps true st he]
  simp

theorem runDriver_numSteps_noconv (stepFn : DecState → DecState × Bool)
    (obs : Bool) (delay maxSteps : ℕ)
    (hpres : ∀ s, (stepFn s).1.numSteps = s.numSteps)
    (hnc : ∀ s, (stepFn s).2 = false) :
    ∀ fuel st, st.numSteps ≤ maxSteps →
      (runDriver stepFn obs delay maxSteps fuel st).1.numSteps
        = min (st.numSteps + fuel) maxSteps := by
  intro fuel
  induction fuel with
  | zero => intro st h; unfold runDriver; simp only []; omega
  | succ fuel ih =>
      intro st h
      unfold runDriver
      by_cases hg : st.numSteps < maxSteps
      · rw [if_pos hg]
        simp only [hnc st, Bool.false_eq_true, if_false]
        have hns : (nextItStep obs delay maxSteps (stepFn st).1).1.numSteps
            = st.numSteps + 1 := by
          rw [nextItStep_numSteps, hpres]
        rw [ih _ (by rw [hns]; omega), hns]
        omega
      · rw [if_neg hg]
        simp only []
        omega

theorem checkConvergence_t (f : ℚ → ℚ) (eps : ℚ) (b : Bool) (st : DecState) :
    (checkConvergence f eps b st).2.t = st.t := by
  unfold checkConvergence
  split
  · rfl
  · cases st.oldApprox <;> cases b <;>
      simp [computeApprox, apply_ite DecState.t]

theorem factorizeNMFEDIter_t (st : DecState) :
    (factorizeNMFEDIter st).t = st.t := rfl

theorem factorizeNMFEDStep_t (f : ℚ → ℚ) (eps : ℚ) (st : DecState) :
    ((factorizeNMFEDStep f eps st).1).t = st.t := by
  by_cases hc : (checkConvergence f eps true st).1 <;>
    simp [factorizeNMFEDStep, hc, checkConvergence_t, factorizeNMFEDIter_t]

theorem runDriver_t (stepFn : DecState → DecState × Bool) (obs : Bool)
    (delay maxSteps : ℕ) (hprest : ∀ s, (stepFn s).1.t = s.t) :
    ∀ fuel st, (runDriver stepFn obs delay maxSteps fuel st).1.t = st.t := by
  intro fuel
  induction fuel with
  | zero => intro st; rfl
  | succ fuel ih =>
      intro st
      unfold runDriver
      split
      · by_cases hc : (stepFn st).2
        · simp only [hc, if_true]
          rw [hprest]
        · simp only [hc, Bool.false_eq_true, if_false]
          rw [ih]
          show (nextItStep obs delay maxSteps (stepFn st).1).1.t = st.t
          rw [show (nextItStep obs delay maxSteps (stepFn st).1).1.t
              = (stepFn st).1.t from rfl, hprest]
      · rfl

theorem finishDecompose_numSteps (f : ℚ → ℚ) (obs : Bool)
    (r : DecState × List ℚ) :
    ((finishDecompose f obs r).1).numSteps = r.1.numSteps := by
  unfold finishDecompose
  simp only []
  split <;> rfl

theorem finishDecompose_t (f : ℚ → ℚ) (obs : Bool) (r : DecState × List ℚ) :
    ((finishDecompose f obs r).1).t = r.1.t := by
  unfold finishDecompose
  simp only []
  split <;> rfl

theorem decompose_ED_result (f : ℚ → ℚ) (ms : ℕ) (eps : ℚ) (obs : Bool)
    (st : DecState) (ht1 : st.t = 1) :
    decompose f NMFCostFunction.EuclideanDistance ms eps obs st
      = finishDecompose f obs (factorizeNMFED f eps obs ms st) := by
  simp [decompose, ht1]

/-- C8 counterexample: the claim states that 1.0 is passed to the observer
exactly once over a successful decompose run.  At stC8 (notification
delay 1), an ED decompose with max_steps = 2 and ε = 0 emits the
fractions 1/2 and 1 from the loop (the in-loop notification at step 2
already passes 2/2 = 1.0) and then 1.0 again from the completion
notification: 1.0 is passed twice. -/
theorem C8_counterexample :
    (decompose ratSqrt NMFCostFunction.EuclideanDistance 2 0 true stC8).2.1
      = [1/2, 1, 1] ∧
    ((decompose ratSqrt NMFCostFunction.EuclideanDistance 2 0 true
      stC8).2.1).count 1 = 2 := by
  have hpres := factorizeNMFEDStep_numSteps ratSqrt 0
  have hnc : ∀ s, (factorizeNMFEDStep ratSqrt 0 s).2 = false :=
    fun s => factorizeNMFEDStep_noconv ratSqrt 0 s le_rfl
  have hN := runDriver_numSteps_noconv (factorizeNMFEDStep ratSqrt 0) true 1 2
    hpres hnc 2 { stC8 with numSteps := 0 } (Nat.zero_le 2)
  have htr := runDriver_trace (factorizeNMFEDStep ratSqrt 0) 1 2 hpres 2
    { stC8 with numSteps := 0 }
  rw [hN] at htr
  have hdec : (decompose ratSqrt NMFCostFunction.EuclideanDistance 2 0 true
        stC8).2.1
      = (runDriver (factorizeNMFEDStep ratSqrt 0) true 1 2 2
          { stC8 with numSteps := 0 }).2 ++ [1] := rfl
  have hlist : (decompose ratSqrt NMFCostFunction.EuclideanDistance 2 0 true
      stC8).2.1 = [1/2, 1, 1] := by
    rw [hdec, htr]
    norm_num [List.range']
  refine ⟨hlist, ?_⟩
  rw [hlist]
  rw [show ((1:ℚ)/2) = (2:ℚ)⁻¹ by norm_num]
  simp [List.count_cons]

/-- C8 amended: over the loop shared by all six drivers, the in-loop
fractions form the canonical trace (step/max_steps exactly at the
positive multiples of the notification delay); together with the final
1.0 of the decompose epilogue the sequence is non-decreasing and ends in
1.0, and 1.0 is passed exactly once unless the run completes exactly
max_steps iterations and the delay divides max_steps, in which case it is
passed twice; a null observer receives nothing. -/
theorem C8_amended (stepFn : DecState → DecState × Bool) (delay maxSteps : ℕ)
    (st : DecState) (hpres : ∀ s, (stepFn s).1.numSteps = s.numSteps) :
    (runDriver stepFn true delay maxSteps maxSteps
        { st with numSteps := 0 }).2
      = canonicalTrace
          (runDriver stepFn true delay maxSteps maxSteps
            { st with numSteps := 0 }).1.numSteps delay maxSteps ∧
    List.Chain' (· ≤ ·)
      ((runDriver stepFn true delay maxSteps maxSteps
        { st with numSteps := 0 }).2 ++ [1]) ∧
    ((runDriver stepFn true delay maxSteps maxSteps
        { st with numSteps := 0 }).2 ++ [1]).getLast? = some 1 ∧
    ((runDriver stepFn true delay maxSteps maxSteps
        { st with numSteps := 0 }).2 ++ [1]).count 1
      = (if (runDriver stepFn true delay maxSteps maxSteps
              { st with numSteps := 0 }).1.numSteps = maxSteps
            ∧ maxSteps % delay = 0 ∧ 0 < maxSteps then 2 else 1) ∧
    (runDriver stepFn false delay maxSteps maxSteps
      { st with numSteps := 0 }).2 = [] := by
  have hn : (runDriver stepFn true delay maxSteps maxSteps
      { st with numSteps := 0 }).1.numSteps ≤ maxSteps :=
    runDriver_numSteps_le stepFn true delay maxSteps hpres maxSteps _
      (Nat.zero_le _)
  have htr : (runDriver stepFn true delay maxSteps maxSteps
      { st with numSteps := 0 }).2
      = canonicalTrace
          (runDriver stepFn true delay maxSteps maxSteps
            { st with numSteps := 0 }).1.numSteps delay maxSteps := by
    rw [runDriver_trace stepFn delay maxSteps hpres maxSteps
      { st with numSteps := 0 }]
    unfold canonicalTrace
    norm_num
  refine ⟨htr, ?_, ?_, ?_, runDriver_trace_noObs stepFn delay maxSteps
    maxSteps _⟩
  · rw [htr]
    apply List.Pairwise.chain'
    rw [List.pairwise_append]
    exact ⟨canonicalTrace_pairwise _ _ _, List.pairwise_singleton _ _,
      fun a ha b hb => by
        rw [List.mem_singleton] at hb
        rw [hb]
        exact canonicalTrace_mem_le_one _ delay _ hn a ha⟩
  · exact List.getLast?_concat _
  · rw [htr, List.count_append,
      canonicalTrace_count_one _ delay maxSteps hn]
    by_cases hcond : (runDriver stepFn true delay maxSteps maxSteps
        { st with numSteps := 0 }).1.numSteps = maxSteps
        ∧ maxSteps % delay = 0 ∧ 0 < maxSteps
    · rw [if_pos hcond, if_pos hcond]
      rfl
    · rw [if_neg hcond, if_neg hcond]
      rfl

/-- C8 amended witness, with an immediately converging step function. -/
theorem C8_amended_witness :
    (runDriver (fun s => (s, true)) true 25 3 3
        { stC8w with numSteps := 0 }).2
      = canonicalTrace (runDriver (fun s => (s, true)) true 25 3 3
          { stC8w with numSteps := 0 }).1.numSteps 25 3 ∧
    (runDriver (fun s => (s, true)) false 25 3 3
      { stC8w with numSteps := 0 }).2 = [] :=
  ⟨(C8_amended (fun s => (s, true)) 25 3 stC8w (fun s => rfl)).1,
   (C8_amended (fun s => (s, true)) 25 3 stC8w (fun s => rfl)).2.2.2.2⟩

/-- C9 counterexample: the claim states that the step counter advances
monotonically over the engine's lifetime, including across successive
decompose calls.  Starting from stC9, a first ED decompose with
max_steps = 5 and ε = 0 ends with step = 5; a second decompose on the
resulting engine ends with step = 3, because every driver resets
`_numSteps = 0` at entry: during the second call the counter went from
5 back to 0, so it is not monotone across calls. -/
theorem C9_counterexample :
    ((decompose ratSqrt NMFCostFunction.EuclideanDistance 5 0 false
      stC9).1).numSteps = 5 ∧
    ((decompose ratSqrt NMFCostFunction.EuclideanDistance 3 0 false
      ((decompose ratSqrt NMFCostFunction.EuclideanDistance 5 0 false
        stC9).1)).1).numSteps = 3 := by
  have hpres := factorizeNMFEDStep_numSteps ratSqrt 0
  have hnc : ∀ s, (factorizeNMFEDStep ratSqrt 0 s).2 = false :=
    fun s => factorizeNMFEDStep_noconv ratSqrt 0 s le_rfl
  have h1 : ((decompose ratSqrt NMFCostFunction.EuclideanDistance 5 0 false
      stC9).1).numSteps = 5 := by
    rw [decompose_ED_result ratSqrt 5 0 false stC9 rfl,
      finishDecompose_numSteps]
    show (factorizeNMFED ratSqrt 0 false 5 stC9).1.numSteps = 5
    unfold factorizeNMFED
    rw [runDriver_numSteps_noconv _ false stC9.notificationDelay 5 hpres hnc
      5 _ (Nat.zero_le 5)]
    rfl
  have ht1 : ((decompose ratSqrt NMFCostFunction.EuclideanDistance 5 0 false
      stC9).1).t = 1 := by
    rw [decompose_ED_result ratSqrt 5 0 false stC9 rfl, finishDecompose_t]
    show (factorizeNMFED ratSqrt 0 false 5 stC9).1.t = 1
    unfold factorizeNMFED
    rw [runDriver_t _ false stC9.notificationDelay 5
      (factorizeNMFEDStep_t ratSqrt 0) 5 _]
    rfl
  refine ⟨h1, ?_⟩
  rw [decompose_ED_result ratSqrt 3 0 false _ ht1, finishDecompose_numSteps]
  show (factorizeNMFED ratSqrt 0 false 3 _).1.numSteps = 3
  unfold factorizeNMFED
  rw [runDriver_numSteps_noconv _ false _ 3 hpres hnc 3 _ (Nat.zero_le 3)]
  rfl

/-- C9 amended: within a single decompose call, each driver resets the
step counter to zero and the loop advances it by exactly one per
completed iteration (`nextItStep`), it never decreases during the run,
and at return it is at most max_steps; the counter does not persist
across decompose calls. -/
theorem C9_amended (f : ℚ → ℚ) (eps : ℚ) (obs : Bool) (maxSteps : ℕ)
    (st : DecState) (stepFn : DecState → DecState × Bool)
    (hpres : ∀ s, (stepFn s).1.numSteps = s.numSteps) :
    (factorizeNMFED f eps obs maxSteps st).1.numSteps ≤ maxSteps ∧
    (factorizeNMDED f eps obs maxSteps st).1.numSteps ≤ maxSteps ∧
    (factorizeNMDKL f eps obs maxSteps st).1.numSteps ≤ maxSteps ∧
    (factorizeNMFEDSparse f eps obs maxSteps st).1.numSteps ≤ maxSteps ∧
    (factorizeNMFKLSparse f eps obs maxSteps st).1.numSteps ≤ maxSteps ∧
    (factorizeNMFKLTempCont f eps obs maxSteps st).1.numSteps ≤ maxSteps ∧
    (factorizeNMFEDSparseNorm f eps obs maxSteps st).1.numSteps ≤ maxSteps ∧
    (∀ s, (nextItStep obs st.notificationDelay maxSteps s).1.numSteps
      = s.numSteps + 1) ∧
    (∀ fuel s, s.numSteps
      ≤ (runDriver stepFn obs st.notificationDelay maxSteps fuel
          s).1.numSteps) :=
  ⟨runDriver_numSteps_le _ obs _ maxSteps (factorizeNMFEDStep_numSteps f eps)
      maxSteps _ (Nat.zero_le _),
   runDriver_numSteps_le _ obs _ maxSteps (factorizeNMDEDStep_numSteps f eps)
      maxSteps _ (Nat.zero_le _),
   runDriver_numSteps_le _ obs _ maxSteps (factorizeNMDKLStep_numSteps f eps)
      maxSteps _ (Nat.zero_le _),
   runDriver_numSteps_le _ obs _ maxSteps
      (factorizeNMFEDSparseStep_numSteps f eps) maxSteps _ (Nat.zero_le _),
   runDriver_numSteps_le _ obs _ maxSteps
      (factorizeNMFKLSparseStep_numSteps f eps) maxSteps _ (Nat.zero_le _),
   runDriver_numSteps_le _ obs _ maxSteps
      (factorizeNMFKLTempContStep_numSteps f eps) maxSteps _ (Nat.zero_le _),
   runDriver_numSteps_le _ obs _ maxSteps
      (factorizeNMFEDSparseNormStep_numSteps f eps) maxSteps _ (Nat.zero_le _),
   fun s => rfl,
   fun fuel s => runDriver_numSteps_ge stepFn obs st.notificationDelay
      maxSteps hpres fuel s⟩

/-- C9 amended witness with an immediately converging step function. -/
theorem C9_amended_witness :
    (factorizeNMFED ratSqrt 0 false 0 stC9w).1.numSteps ≤ 0 ∧
    stC9w.numSteps ≤ (runDriver (fun s => (s, true)) false
      stC9w.notificationDelay 0 0 stC9w).1.numSteps :=
  ⟨(C9_amended ratSqrt 0 false 0 stC9w (fun s => (s, true))
      (fun _ => rfl)).1,
   (C9_amended ratSqrt 0 false 0 stC9w (fun s => (s, true))
      (fun _ => rfl)).2.2.2.2.2.2.2.2 0 stC9w⟩

/-- C10: a successful construction returns the state `constructOk`, whose
sparsity matrix S and continuity matrix C are all-zero, whose
`w_constant` flag is false and whose `w_col_constant` entries are all
false, whose absolute and relative errors both equal -1, whose
reconstruction Λ is all-zero, and whose notification stride is 25. -/
theorem C10_construction_defaults (f : ℚ → ℚ) (v : Mat) (r t : ℕ)
    (wg hg : ℕ → ℕ → ℚ) :
    (¬ v.cols < t →
      construct f v r t wg hg = Except.ok (constructOk f v r t wg hg)) ∧
    (∀ i j, i < r → j < v.cols →
      (constructOk f v r t wg hg).s.entry i j = 0 ∧
      (constructOk f v r t wg hg).c.entry i j = 0) ∧
    (constructOk f v r t wg hg).wConstant = false ∧
    (∀ j, j < r → (constructOk f v r t wg hg).wColConstant j = false) ∧
    (constructOk f v r t wg hg).absoluteError = -1 ∧
    (constructOk f v r t wg hg).relativeError = -1 ∧
    (∀ i j, i < v.rows → j < v.cols →
      (constructOk f v r t wg hg).approx.entry i j = 0) ∧
    (constructOk f v r t wg hg).notificationDelay = 25 := by
  refine ⟨fun h => by unfold construct; rw [if_neg h], ?_, rfl, ?_, rfl, rfl,
    ?_, rfl⟩
  · intro i j hi hj
    constructor <;> simp [constructOk, Mat.ofFn, hi, hj]
  · intro j hj
    rfl
  · intro i j hi hj
    simp [constructOk, Mat.zeros, Mat.ofFn, hi, hj]

/-- C10 witness at a concrete 1×2 input matrix. -/
theorem C10_witness :
    (constructOk ratSqrt vC10 1 1 (fun _ _ => 1)
      (fun _ _ => 1)).notificationDelay = 25 ∧
    (constructOk ratSqrt vC10 1 1 (fun _ _ => 1)
      (fun _ _ => 1)).s.entry 0 0 = 0 ∧
    (constructOk ratSqrt vC10 1 1 (fun _ _ => 1)
      (fun _ _ => 1)).wColConstant 0 = false :=
  ⟨(C10_construction_defaults ratSqrt vC10 1 1 (fun _ _ => 1)
      (fun _ _ => 1)).2.2.2.2.2.2.2,
   ((C10_construction_defaults ratSqrt vC10 1 1 (fun _ _ => 1)
      (fun _ _ => 1)).2.1 0 0 (by decide) (by decide)).1,
   (C10_construction_defaults ratSqrt vC10 1 1 (fun _ _ => 1)
      (fun _ _ => 1)).2.2.2.1 0 (by decide)⟩
